import Mathlib

/-!
Verification development for the wizcast segmentation / reduction / assembly core.

Texts are modelled as `List Char` (Python `str` is a sequence of code points);
encoded byte size of a text is the sum of the UTF-8 sizes of its characters
(`Char.utf8Size`), matching `len(s.encode("utf-8"))`.  Whitespace is modelled as
the six ASCII whitespace characters recognised by `str.strip()` and `\s`
(the Unicode-only whitespace code points are not exercised by any claim).

Loops of the source that advance by a data-dependent amount are modelled by
structural recursion on an explicit iteration bound (fuel); the bound used by
the wrapper definitions is proved sufficient, so the wrappers compute the same
value the loop does.
-/

/-- ASCII whitespace, as stripped by Python `str.strip()` and matched by `\s`. -/
def isSpace (c : Char) : Bool :=
  c = ' ' || c = '\t' || c = '\n' || c = '\r' || c = '\x0B' || c = '\x0C'

/-- Python `len(s.encode("utf-8"))`: byte length of the UTF-8 encoding of `s`. -/
def utf8Len (s : List Char) : Nat :=
  (s.map Char.utf8Size).sum

/-- Python `s.strip()`: remove leading and trailing whitespace. -/
def strip (s : List Char) : List Char :=
  ((s.dropWhile isSpace).reverse.dropWhile isSpace).reverse

/-- The non-whitespace characters of a text, in order.  Two texts with the
same `nw` image differ only by whitespace normalization. -/
def nw (s : List Char) : List Char :=
  s.filter (fun c => !isSpace c)

/-- Helper for the splitters: prepend a character to the first piece. -/
def consCar (c : Char) : List (List Char) → List (List Char)
  | [] => [[c]]
  | h :: t => (c :: h) :: t

/-- Python `text.split("\n\n")`: split on non-overlapping occurrences of a
blank-line boundary, scanned left to right. -/
def splitPP : List Char → List (List Char)
  | [] => [[]]
  | [c] => [[c]]
  | c :: d :: rest =>
    if c = '\n' ∧ d = '\n' then [] :: splitPP rest
    else consCar c (splitPP (d :: rest))

/-- Is `c` one of the sentence-final punctuation marks `.`, `!`, `?`. -/
def isPunct (c : Char) : Bool :=
  c = '.' || c = '!' || c = '?'

/-- Python `re.split(r"(?<=[.!?])\s+", s)`, fuelled: split after sentence
punctuation followed by a whitespace run, consuming the whole run.  Each
recursive step consumes at least one character, so fuel `s.length` suffices. -/
def splitSentF : Nat → List Char → List (List Char)
  | _, [] => [[]]
  | 0, s => [s]
  | _ + 1, [c] => [[c]]
  | fuel + 1, c :: d :: rest =>
    if isPunct c ∧ isSpace d then
      [c] :: splitSentF fuel (rest.dropWhile isSpace)
    else
      consCar c (splitSentF fuel (d :: rest))

/-- Python `re.split(r"(?<=[.!?])\s+", s)`. -/
def splitSent (s : List Char) : List (List Char) :=
  splitSentF s.length s

/-- The hard-cut loop `while len(sub.encode("utf-8")) > limit: sub = sub[:-1]`,
fuelled; one character is chopped per step, so fuel `s.length` suffices
(the empty candidate has byte length `0 ≤ limit`, stopping the loop). -/
def shrinkGo (limit : Nat) : Nat → List Char → List Char
  | 0, s => s
  | fuel + 1, s => if utf8Len s ≤ limit then s else shrinkGo limit fuel s.dropLast

/-- Chop characters off the end of `s` until its encoded size fits `limit`. -/
def shrinkToFit (limit : Nat) (s : List Char) : List Char :=
  shrinkGo limit s.length s

/-- Model of `estimated_max_chars = limit // 1.5` of the source: the float floor
division equals `⌊2 * limit / 3⌋` exactly for every realistic limit. -/
def estMaxChars (limit : Nat) : Nat :=
  2 * limit / 3

/-- The hard-split `while start_idx < len(sentence)` loop, fuelled: take up to
`estMaxChars` characters, shrink to the byte budget, emit, advance; if the
candidate shrank to nothing, break (dropping the remainder).  Each emitting
step advances by at least one character, so fuel `rem.length` suffices. -/
def hardSplitGo (limit : Nat) : Nat → List Char → List (List Char)
  | _, [] => []
  | 0, _ :: _ => []
  | fuel + 1, c :: rest =>
    let sub := shrinkToFit limit ((c :: rest).take (estMaxChars limit))
    if sub.isEmpty then []
    else sub :: hardSplitGo limit fuel ((c :: rest).drop sub.length)

/-- Hard byte-safe cut of an oversized sentence (`_chunk_text`, hard split). -/
def hardSplit (limit : Nat) (s : List Char) : List (List Char) :=
  hardSplitGo limit s.length s

/-- Same loop, but reporting fuel exhaustion as `none`: `none` models a run of
the loop that needs more than `fuel` iterations. -/
def hardSplitF (limit : Nat) : Nat → List Char → Option (List (List Char))
  | _, [] => some []
  | 0, _ :: _ => none
  | fuel + 1, c :: rest =>
    let sub := shrinkToFit limit ((c :: rest).take (estMaxChars limit))
    if sub.isEmpty then some []
    else (hardSplitF limit fuel ((c :: rest).drop sub.length)).map (sub :: ·)

/-- The `for sentence in sentences` loop of `_chunk_text`: greedy accumulation
of sentences into `temp` (joined by a single space, 1 byte), closing a chunk on
overflow and hard-splitting a sentence that alone exceeds the budget.
State is `(chunks, temp_sentence_chunk)`. -/
def sentLoop (limit : Nat) :
    List (List Char) → List (List Char) → List Char → List (List Char) × List Char
  | [], chunks, temp => (chunks, temp)
  | sent0 :: rest, chunks, temp =>
    let sent := strip sent0
    if sent.isEmpty then sentLoop limit rest chunks temp
    else if utf8Len temp + (if temp.isEmpty then 0 else 1) + utf8Len sent ≤ limit then
      sentLoop limit rest chunks (if temp.isEmpty then sent else temp ++ ' ' :: sent)
    else
      let chunks1 := if temp.isEmpty then chunks else chunks ++ [temp]
      if limit < utf8Len sent then
        sentLoop limit rest (chunks1 ++ hardSplit limit sent) []
      else
        sentLoop limit rest chunks1 sent

/-- The oversized-paragraph branch of `_chunk_text`: split the paragraph into
sentences, run the sentence loop, and flush the trailing sentence chunk. -/
def handleBigPara (limit : Nat) (chunks : List (List Char)) (para : List Char) :
    List (List Char) :=
  let st := sentLoop limit (splitSent para) chunks []
  if st.2.isEmpty then st.1 else st.1 ++ [st.2]

/-- The `for paragraph in paragraphs` loop of `_chunk_text`: greedy
accumulation of stripped paragraphs into `current_chunk` (joined by a blank
line, 2 bytes), closing on overflow and escalating an oversized paragraph to
the sentence loop.  State is `(chunks, current_chunk)`. -/
def paraLoop (limit : Nat) :
    List (List Char) → List (List Char) → List Char → List (List Char) × List Char
  | [], chunks, cur => (chunks, cur)
  | para0 :: rest, chunks, cur =>
    let para := strip para0
    if para.isEmpty then paraLoop limit rest chunks cur
    else if utf8Len cur + (if cur.isEmpty then 0 else 2) + utf8Len para ≤ limit then
      paraLoop limit rest chunks (if cur.isEmpty then para else cur ++ '\n' :: '\n' :: para)
    else
      let chunks1 := if cur.isEmpty then chunks else chunks ++ [cur]
      if limit < utf8Len para then
        paraLoop limit rest (handleBigPara limit chunks1 para) []
      else
        paraLoop limit rest chunks1 para

/-- Model of `TextToSpeechService._chunk_text` (services.py): byte-budget segmentation
with the paragraph → sentence → hard-cut fallback cascade, then dropping
whitespace-only chunks. -/
def chunkText (limit : Nat) (text : List Char) : List (List Char) :=
  if text.isEmpty then []
  else
    let st := paraLoop limit (splitPP text) [] []
    (if st.2.isEmpty then st.1 else st.1 ++ [st.2]).filter (fun c => !(strip c).isEmpty)

/-- Python `"\n\n".join(paragraph_list)`. -/
def joinPP (ps : List (List Char)) : List Char :=
  List.intercalate ['\n', '\n'] ps

/-- The paragraph loop of `ReleaseNotesSource._chunk_text_by_paragraphs`
(datasources.py): greedy accumulation of raw paragraphs under a character
budget; an oversized paragraph is emitted whole as its own chunk.  State is
`(chunks, current_chunk_paragraphs, current_chunk_char_count)`. -/
def paraLoop2 (m : Nat) :
    List (List Char) → List (List Char) → List (List Char) → Nat →
      List (List Char) × List (List Char) × Nat
  | [], chunks, curs, cnt => (chunks, curs, cnt)
  | p :: rest, chunks, curs, cnt =>
    if (strip p).isEmpty then paraLoop2 m rest chunks curs cnt
    else
      let pl := p.length
      let st1 :=
        if ¬curs.isEmpty ∧ m < cnt + pl + 2 then
          (chunks ++ [joinPP curs], ([] : List (List Char)), 0)
        else (chunks, curs, cnt)
      let curs2 := st1.2.1 ++ [p]
      let cnt2 := st1.2.2 + pl + (if 1 < curs2.length then 2 else 0)
      if m < pl ∧ curs2.length = 1 then
        paraLoop2 m rest (st1.1 ++ [joinPP curs2]) [] 0
      else
        paraLoop2 m rest st1.1 curs2 cnt2

/-- Model of `ReleaseNotesSource._chunk_text_by_paragraphs` (datasources.py):
character-budget segmentation by paragraphs only, then dropping
whitespace-only chunks. -/
def chunkTextByParagraphs (m : Nat) (text : List Char) : List (List Char) :=
  let st := paraLoop2 m (splitPP text) [] [] 0
  (if st.2.1.isEmpty then st.1 else st.1 ++ [joinPP st.2.1]).filter
    (fun c => !(strip c).isEmpty)

/-- UTF-8 encoding of one code point `c.toNat` (written with division and
remainder; the arithmetic agrees with the usual shift-and-mask presentation). -/
def charBytes (c : Char) : List Nat :=
  let n := c.toNat
  if n < 128 then [n]
  else if n < 2048 then [192 + n / 64, 128 + n % 64]
  else if n < 65536 then [224 + n / 4096, 128 + n / 64 % 64, 128 + n % 64]
  else [240 + n / 262144, 128 + n / 4096 % 64, 128 + n / 64 % 64, 128 + n % 64]

/-- Python `s.encode("utf-8")`: the byte sequence of the UTF-8 encoding of `s`. -/
def utf8Encode (s : List Char) : List Nat :=
  (s.map charBytes).flatten

/-- Is `b` a UTF-8 continuation byte (`10xxxxxx`). -/
def isCont (b : Nat) : Bool :=
  128 ≤ b && b < 192

/-- Strictly decode one UTF-8 sequence from the front: the code point and the
remaining bytes, or `none` on any malformed front (truncated sequence, bad
leading or continuation byte, overlong encoding, surrogate, out-of-range). -/
def utf8DecodeOne : List Nat → Option (Nat × List Nat)
  | [] => none
  | b0 :: rest =>
    if b0 < 128 then some (b0, rest)
    else if b0 < 192 then none
    else if b0 < 224 then
      match rest with
      | b1 :: rest2 =>
        if isCont b1 then
          let n := (b0 - 192) * 64 + (b1 - 128)
          if 128 ≤ n then some (n, rest2) else none
        else none
      | [] => none
    else if b0 < 240 then
      match rest with
      | b1 :: b2 :: rest2 =>
        if isCont b1 ∧ isCont b2 then
          let n := (b0 - 224) * 4096 + (b1 - 128) * 64 + (b2 - 128)
          if 2048 ≤ n ∧ ¬(55296 ≤ n ∧ n < 57344) then some (n, rest2) else none
        else none
      | _ => none
    else if b0 < 248 then
      match rest with
      | b1 :: b2 :: b3 :: rest2 =>
        if isCont b1 ∧ isCont b2 ∧ isCont b3 then
          let n := (b0 - 240) * 262144 + (b1 - 128) * 4096 + (b2 - 128) * 64 + (b3 - 128)
          if 65536 ≤ n ∧ n < 1114112 then some (n, rest2) else none
        else none
      | _ => none
    else none

/-- The decoding loop, fuelled: each successfully decoded sequence consumes at
least one byte, so fuel `bs.length` suffices. -/
def utf8DecodeGo : Nat → List Nat → Option (List Nat)
  | _, [] => some []
  | 0, _ :: _ => none
  | fuel + 1, b0 :: rest =>
    match utf8DecodeOne (b0 :: rest) with
    | some nr => (utf8DecodeGo fuel nr.2).map (nr.1 :: ·)
    | none => none

/-- A strict UTF-8 decoder returning the decoded code points, or `none` on any
malformed input, as `bytes.decode("utf-8")`. -/
def utf8Decode (bs : List Nat) : Option (List Nat) :=
  utf8DecodeGo bs.length bs

/-- Decimal digits of a natural number, as characters (Python `str(n)`). -/
def natChars (n : Nat) : List Char :=
  (Nat.repr n).toList

/-- Does an LLM reply count as a failure for the release-notes reducer:
Python `not (summary and not summary.lower().startswith("error:"))`, where
`None` is modelled as `none`. -/
def llmFailed (r : Option (List Char)) : Bool :=
  match r with
  | none => true
  | some s => s.isEmpty || (s.map Char.toLower).take 6 = "error:".toList

/-- The placeholder recorded for a failed chunk, datasources.py line 210:
`f"[Error summarizing chunk {i}. Content snippet: {chunk[:150]}...]"`. -/
def rnPlaceholder (i : Nat) (chunk : List Char) : List Char :=
  "[Error summarizing chunk ".toList ++ natChars i ++ ". Content snippet: ".toList ++
    chunk.take 150 ++ "...]".toList

/-- Pair each list element with its 1-based position. -/
def enumFrom (i : Nat) : List α → List (Nat × α)
  | [] => []
  | a :: as => (i, a) :: enumFrom (i + 1) as

/-- The per-chunk summarization loop of `ReleaseNotesSource.fetch_content`
(datasources.py lines 198-210): a successful summary is kept, a failed one is
replaced by a placeholder, so every chunk contributes exactly one entry. -/
def rnSummaries (llm : List Char → Option (List Char)) (chunks : List (List Char)) :
    List (List Char) :=
  (enumFrom 1 chunks).map fun ic =>
    match llm ic.2 with
    | some s => if llmFailed (some s) then rnPlaceholder ic.1 ic.2 else s
    | none => rnPlaceholder ic.1 ic.2

/-- The aggregate-failure text of datasources.py line 214. -/
def aggFailText : List Char :=
  "[Error: Failed to process release notes through chunked summarization.]".toList

/-- The separator joining per-chunk summaries, datasources.py line 216. -/
def rnSep : List Char :=
  "\n\n---\n\n".toList

/-- The final combining call (datasources.py lines 225-235): on success return
the final summary, on failure fall back to the combined intermediate text.
(The combine prompt is assumed loaded; a missing prompt file also returns the
combined text unchanged.) -/
def rnFinalPhase (llmFinal : List Char → Option (List Char)) (comb : List Char) :
    List Char :=
  match llmFinal comb with
  | some s => if llmFailed (some s) then comb else s
  | none => comb

/-- The chunked-summarization stage of `ReleaseNotesSource.fetch_content`
(datasources.py lines 198-235), from the chunk list on: summarize each chunk
(placeholder on failure), return the aggregate failure if no summaries exist,
otherwise join with `rnSep` and apply the final combining call. -/
def rnReduce (llm llmFinal : List Char → Option (List Char))
    (chunks : List (List Char)) : List Char :=
  let sums := rnSummaries llm chunks
  if sums.isEmpty then aggFailText
  else rnFinalPhase llmFinal (List.intercalate rnSep sums)

/-- The on-disk artifacts of one assembler run, all named relative to the run
base path: `{base}_part{i}.mp3`, `{base}_full.mp3`, `{base}.mp3`, and the
ffmpeg manifest `{base}_concat_list.txt`.  The four naming patterns are
pairwise distinct strings, so paths are modelled by this tag type. -/
inductive MP3Path where
  | part (i : Nat)
  | full
  | single
  | concatList
deriving DecidableEq, Repr

/-- The filesystem namespace under the base path: an association list from
path to file byte size. -/
abbrev FS := List (MP3Path × Nat)

/-- Size of the file at `p`, if it exists. -/
def FS.get : FS → MP3Path → Option Nat
  | [], _ => none
  | (q, n) :: rest, p => if q = p then some n else FS.get rest p

/-- Python `os.path.exists(p)`. -/
def FS.hasFile (fs : FS) (p : MP3Path) : Bool :=
  (fs.get p).isSome

/-- Python `os.path.getsize(p)` (0 when the file is missing). -/
def FS.size (fs : FS) (p : MP3Path) : Nat :=
  (fs.get p).getD 0

/-- Python `os.remove(p)`. -/
def FS.remove : FS → MP3Path → FS
  | [], _ => []
  | (q, n) :: rest, p => if q = p then FS.remove rest p else (q, n) :: FS.remove rest p

/-- Create or overwrite the file at `p` with `n` bytes. -/
def FS.write (fs : FS) (p : MP3Path) (n : Nat) : FS :=
  (p, n) :: fs.remove p

/-- Remove every path in `ps` (the part-cleanup loop after a combine). -/
def FS.removeList (fs : FS) (ps : List MP3Path) : FS :=
  ps.foldl FS.remove fs

/-- Python `os.rename(src, dst)` (only invoked with an existing `src`). -/
def FS.rename (fs : FS) (src dst : MP3Path) : FS :=
  match fs.get src with
  | some n => (fs.remove src).write dst n
  | none => fs

/-- The external collaborators of one `synthesize_to_mp3` run:
`synth c = some n` means the per-chunk synthesis call succeeds and writes an
`n`-byte file, `none` means it fails writing nothing; `combineSize = some n`
means ffmpeg succeeds producing an `n`-byte combined file, `none` means it
fails or is unavailable; `renameOk` is whether `os.rename` succeeds. -/
structure SynthEnv where
  synth : List Char → Option Nat
  combineSize : Option Nat
  renameOk : Bool

/-- The per-chunk synthesis loop of `synthesize_to_mp3` (services.py lines
225-236), counting synthesis calls: skip a part that exists non-empty when not
overwriting, otherwise call the synthesizer and persist its output. -/
def synthGo (env : SynthEnv) (ow : Bool) :
    List (Nat × List Char) → FS → Nat → FS × Nat
  | [], fs, calls => (fs, calls)
  | (i, c) :: rest, fs, calls =>
    if ow = false ∧ fs.hasFile (.part i) ∧ 0 < fs.size (.part i) then
      synthGo env ow rest fs calls
    else
      match env.synth c with
      | some n => synthGo env ow rest (fs.write (.part i) n) (calls + 1)
      | none => synthGo env ow rest fs (calls + 1)

/-- The `part_mp3_files` list: one part path per chunk, in order. -/
def partsFor (chunks : List (List Char)) : List MP3Path :=
  (enumFrom 1 chunks).map fun ic => .part ic.1

/-- The list `valid_part_files`: the part paths that exist with non-zero size. -/
def validParts (fs : FS) (names : List MP3Path) : List MP3Path :=
  names.filter fun p => fs.hasFile p && decide (0 < fs.size p)

/-- Filesystem and synthesis-call count after the per-chunk loop. -/
def afterSynth (env : SynthEnv) (ow : Bool) (limit : Nat) (text : List Char)
    (fs0 : FS) : FS × Nat :=
  synthGo env ow (enumFrom 1 (chunkText limit text)) fs0 0

/-- The valid parts of a run, in original segment order. -/
def validFor (env : SynthEnv) (ow : Bool) (limit : Nat) (text : List Char)
    (fs0 : FS) : List MP3Path :=
  validParts (afterSynth env ow limit text fs0).1 (partsFor (chunkText limit text))

/-- What one `synthesize_to_mp3` run returns and does: the returned path list,
the filesystem afterwards, and how many per-chunk synthesis calls and combine
attempts it made. -/
structure RunResult where
  paths : List MP3Path
  fs : FS
  synthCalls : Nat
  combineCalls : Nat
deriving DecidableEq, Repr

/-- Model of `TextToSpeechService.synthesize_to_mp3` (services.py lines 202-337),
modelled from the plain text on (the markdown-to-plain conversion is an
out-of-scope preprocessing step; `text` is its output): chunk, synthesize each
part (skipping valid existing parts when not overwriting), then either return
the pre-existing combined file, combine (deleting parts on success, keeping
them on failure), or rename a single part to the canonical name. -/
def synthesizeToMp3 (env : SynthEnv) (ow : Bool) (limit : Nat) (text : List Char)
    (fs0 : FS) : RunResult :=
  if (strip text).isEmpty then ⟨[], fs0, 0, 0⟩
  else if (chunkText limit text).isEmpty then ⟨[], fs0, 0, 0⟩
  else
    let fsc := afterSynth env ow limit text fs0
    let valid := validFor env ow limit text fs0
    if valid.isEmpty then ⟨[], fsc.1, fsc.2, 0⟩
    else if 1 < valid.length then
      if ow = false ∧ fsc.1.hasFile .full then ⟨[.full], fsc.1, fsc.2, 0⟩
      else
        let fs2 := fsc.1.write .concatList 1
        match env.combineSize with
        | some n =>
          ⟨[.full], (((fs2.write .full n).removeList valid).remove .concatList),
            fsc.2, 1⟩
        | none => ⟨valid, fs2.remove .concatList, fsc.2, 1⟩
    else
      let sp := valid.headD .single
      if sp = .single then ⟨[.single], fsc.1, fsc.2, 0⟩
      else if fsc.1.hasFile .single ∧ ow = false then ⟨[.single], fsc.1, fsc.2, 0⟩
      else
        let fs2 := if fsc.1.hasFile .single ∧ ow = true then fsc.1.remove .single
          else fsc.1
        if env.renameOk then ⟨[.single], fs2.rename sp .single, fsc.2, 0⟩
        else ⟨[sp], fs2, fsc.2, 0⟩

theorem utf8Len_nil : utf8Len [] = 0 := rfl

theorem utf8Len_cons (c : Char) (s : List Char) :
    utf8Len (c :: s) = c.utf8Size + utf8Len s := by
  simp [utf8Len]

theorem utf8Len_append (a b : List Char) :
    utf8Len (a ++ b) = utf8Len a + utf8Len b := by
  simp [utf8Len]

theorem nw_nil : nw [] = [] := rfl

theorem nw_cons (c : Char) (s : List Char) :
    nw (c :: s) = if isSpace c then nw s else c :: nw s := by
  by_cases h : isSpace c <;> simp [nw, List.filter_cons, h]

theorem nw_append (a b : List Char) : nw (a ++ b) = nw a ++ nw b := by
  simp [nw, List.filter_append]

theorem nw_dropWhile (s : List Char) : nw (s.dropWhile isSpace) = nw s := by
  induction s with
  | nil => rfl
  | cons c rest ih =>
    by_cases h : isSpace c <;> simp [List.dropWhile_cons, h, nw_cons, ih]

theorem nw_reverse (s : List Char) : nw s.reverse = (nw s).reverse := by
  simp [nw, List.filter_reverse]

theorem nw_strip (s : List Char) : nw (strip s) = nw s := by
  unfold strip
  rw [nw_reverse, nw_dropWhile, nw_reverse, nw_dropWhile, List.reverse_reverse]

theorem nw_eq_nil_of_strip_eq_nil {s : List Char} (h : (strip s).isEmpty) :
    nw s = [] := by
  rw [← nw_strip, List.isEmpty_iff.1 h, nw_nil]

theorem nw_singleton_append (c : Char) (s : List Char) :
    nw [c] ++ nw s = nw (c :: s) := by
  rw [← nw_append]
  rfl

theorem mem_of_mem_strip {s : List Char} {c : Char} (h : c ∈ strip s) : c ∈ s := by
  unfold strip at h
  rw [List.mem_reverse] at h
  have h2 := (@List.dropWhile_sublist _ ((s.dropWhile isSpace).reverse) isSpace).subset h
  rw [List.mem_reverse] at h2
  exact (@List.dropWhile_sublist _ s isSpace).subset h2

theorem consCar_ne_nil (c : Char) (L : List (List Char)) : consCar c L ≠ [] := by
  cases L <;> simp [consCar]

theorem nw_flatten_consCar (c : Char) (L : List (List Char)) :
    ((consCar c L).map nw).flatten = nw [c] ++ (L.map nw).flatten := by
  cases L with
  | nil => simp [consCar, nw_nil]
  | cons h t =>
    simp only [consCar, List.map_cons, List.flatten_cons]
    rw [← List.append_assoc, nw_singleton_append]

theorem splitPP_ne_nil (t : List Char) : splitPP t ≠ [] := by
  induction t using splitPP.induct with
  | case1 => simp [splitPP]
  | case2 c => simp [splitPP]
  | case3 c d rest h ih => simp [splitPP, if_pos h]
  | case4 c d rest h ih => simp only [splitPP, if_neg h]; exact consCar_ne_nil _ _

theorem nw_flatten_splitPP (t : List Char) :
    ((splitPP t).map nw).flatten = nw t := by
  have hnl : isSpace '\n' = true := by decide
  induction t using splitPP.induct with
  | case1 => rfl
  | case2 c => simp [splitPP]
  | case3 c d rest h ih =>
    rw [splitPP, if_pos h]
    simp only [List.map_cons, List.flatten_cons, nw_nil, List.nil_append, ih]
    obtain ⟨hc, hd⟩ := h
    subst hc; subst hd
    rw [nw_cons, if_pos hnl, nw_cons, if_pos hnl]
  | case4 c d rest h ih =>
    rw [splitPP, if_neg h, nw_flatten_consCar, ih, nw_singleton_append]

theorem mem_of_mem_splitPP {t : List Char} {c : Char} :
    ∀ p ∈ splitPP t, c ∈ p → c ∈ t := by
  induction t using splitPP.induct with
  | case1 =>
    intro p hp hc
    simp only [splitPP, List.mem_singleton] at hp
    subst hp; cases hc
  | case2 d =>
    intro p hp hc
    simp only [splitPP, List.mem_singleton] at hp
    subst hp; exact hc
  | case3 a b rest h ih =>
    intro p hp hc
    simp only [splitPP, if_pos h, List.mem_cons] at hp
    rcases hp with hp | hp
    · subst hp; cases hc
    · exact List.mem_cons_of_mem _ (List.mem_cons_of_mem _ (ih p hp hc))
  | case4 a b rest h ih =>
    intro p hp hc
    simp only [splitPP, if_neg h] at hp
    rcases hL : splitPP (b :: rest) with _ | ⟨q, L⟩
    · exact absurd hL (splitPP_ne_nil _)
    · rw [hL] at hp
      simp only [consCar, List.mem_cons] at hp
      rcases hp with hp | hp
      · subst hp
        rcases List.mem_cons.1 hc with hc2 | hc2
        · subst hc2; exact List.mem_cons_self _ _
        · exact List.mem_cons_of_mem _
            (ih q (by rw [hL]; exact List.mem_cons_self _ _) hc2)
      · exact List.mem_cons_of_mem _
          (ih p (by rw [hL]; exact List.mem_cons_of_mem _ hp) hc)

theorem shrinkGo_le {limit : Nat} :
    ∀ (fuel : Nat) (s : List Char), s.length ≤ fuel →
      utf8Len (shrinkGo limit fuel s) ≤ limit := by
  intro fuel
  induction fuel with
  | zero =>
    intro s hs
    have : s = [] := List.length_eq_zero.1 (Nat.le_zero.1 hs)
    subst this
    simp [shrinkGo, utf8Len_nil]
  | succ f ih =>
    intro s hs
    simp only [shrinkGo]
    by_cases h : utf8Len s ≤ limit
    · simp [h]
    · simp only [if_neg h]
      apply ih
      rw [List.dropLast_eq_take, List.length_take]
      omega

theorem shrinkToFit_le (limit : Nat) (s : List Char) :
    utf8Len (shrinkToFit limit s) ≤ limit :=
  shrinkGo_le s.length s (Nat.le_refl _)

theorem shrinkGo_eq_take {limit : Nat} :
    ∀ (fuel : Nat) (s : List Char), ∃ k, shrinkGo limit fuel s = s.take k := by
  intro fuel
  induction fuel with
  | zero => intro s; exact ⟨s.length, by simp [shrinkGo]⟩
  | succ f ih =>
    intro s
    simp only [shrinkGo]
    by_cases h : utf8Len s ≤ limit
    · exact ⟨s.length, by simp [h]⟩
    · simp only [if_neg h]
      obtain ⟨k, hk⟩ := ih s.dropLast
      refine ⟨min k (s.length - 1), ?_⟩
      rw [hk, List.dropLast_eq_take, List.take_take]

theorem shrinkToFit_eq_take (limit : Nat) (s : List Char) :
    ∃ k, shrinkToFit limit s = s.take k :=
  shrinkGo_eq_take s.length s

theorem shrinkGo_ne_nil {limit : Nat} {c : Char} (hc : c.utf8Size ≤ limit) :
    ∀ (fuel : Nat) (cs : List Char), shrinkGo limit fuel (c :: cs) ≠ [] := by
  intro fuel
  induction fuel with
  | zero => intro cs; simp [shrinkGo]
  | succ f ih =>
    intro cs
    simp only [shrinkGo]
    by_cases h : utf8Len (c :: cs) ≤ limit
    · simp [h]
    · simp only [if_neg h]
      cases cs with
      | nil => exact absurd (by rw [utf8Len_cons, utf8Len_nil]; omega) h
      | cons c2 cs' =>
        have : (c :: c2 :: cs').dropLast = c :: (c2 :: cs').dropLast := rfl
        rw [this]
        exact ih _

theorem nw_flatten_splitSentF :
    ∀ (fuel : Nat) (s : List Char), ((splitSentF fuel s).map nw).flatten = nw s := by
  intro fuel
  induction fuel with
  | zero =>
    intro s
    cases s with
    | nil => rfl
    | cons c rest => simp [splitSentF]
  | succ f ih =>
    intro s
    match s with
    | [] => rfl
    | [c] => simp [splitSentF]
    | c :: d :: rest =>
      rw [splitSentF]
      by_cases h : isPunct c ∧ isSpace d
      · rw [if_pos h]
        simp only [List.map_cons, List.flatten_cons, ih, nw_dropWhile]
        have hcd : nw (c :: d :: rest) = nw [c] ++ nw (d :: rest) :=
          (nw_singleton_append c (d :: rest)).symm
        rw [hcd, nw_cons d rest, if_pos h.2]
      · rw [if_neg h, nw_flatten_consCar, ih, nw_singleton_append]

theorem nw_flatten_splitSent (s : List Char) :
    ((splitSent s).map nw).flatten = nw s :=
  nw_flatten_splitSentF s.length s

theorem mem_of_mem_splitSentF {c : Char} :
    ∀ (fuel : Nat) (s : List Char), ∀ p ∈ splitSentF fuel s, c ∈ p → c ∈ s := by
  intro fuel
  induction fuel with
  | zero =>
    intro s p hp hc
    cases s with
    | nil => simp [splitSentF] at hp; subst hp; cases hc
    | cons a rest =>
      simp only [splitSentF, List.mem_singleton] at hp
      subst hp; exact hc
  | succ f ih =>
    intro s p hp hc
    match s with
    | [] => simp [splitSentF] at hp; subst hp; cases hc
    | [a] =>
      simp only [splitSentF, List.mem_singleton] at hp
      subst hp; exact hc
    | a :: b :: rest =>
      rw [splitSentF] at hp
      by_cases h : isPunct a ∧ isSpace b
      · rw [if_pos h] at hp
        rcases List.mem_cons.1 hp with hp | hp
        · subst hp
          rcases List.mem_cons.1 hc with hc2 | hc2
          · subst hc2; exact List.mem_cons_self _ _
          · cases hc2
        · have := ih _ p hp hc
          have h2 : c ∈ rest := (List.dropWhile_sublist isSpace).subset this
          exact List.mem_cons_of_mem _ (List.mem_cons_of_mem _ h2)
      · rw [if_neg h] at hp
        rcases hL : splitSentF f (b :: rest) with _ | ⟨q, L⟩
        · rw [hL] at hp; simp [consCar] at hp; subst hp
          rcases List.mem_cons.1 hc with hc2 | hc2
          · subst hc2; exact List.mem_cons_self _ _
          · cases hc2
        · rw [hL] at hp
          simp only [consCar, List.mem_cons] at hp
          rcases hp with hp | hp
          · subst hp
            rcases List.mem_cons.1 hc with hc2 | hc2
            · subst hc2; exact List.mem_cons_self _ _
            · exact List.mem_cons_of_mem _
                (ih _ q (by rw [hL]; exact List.mem_cons_self _ _) hc2)
          · exact List.mem_cons_of_mem _
              (ih _ p (by rw [hL]; exact List.mem_cons_of_mem _ hp) hc)

theorem mem_of_mem_splitSent {c : Char} {s : List Char} {p : List Char}
    (hp : p ∈ splitSent s) (hc : c ∈ p) : c ∈ s :=
  mem_of_mem_splitSentF s.length s p hp hc

theorem hardSplitGo_congr {limit : Nat} :
    ∀ (n : Nat) (s : List Char) (f1 f2 : Nat), s.length ≤ n → s.length ≤ f1 →
      s.length ≤ f2 → hardSplitGo limit f1 s = hardSplitGo limit f2 s := by
  intro n
  induction n with
  | zero =>
    intro s f1 f2 hn _ _
    have : s = [] := List.length_eq_zero.1 (Nat.le_zero.1 hn)
    subst this
    cases f1 <;> cases f2 <;> rfl
  | succ n ih =>
    intro s f1 f2 hn h1 h2
    cases s with
    | nil => cases f1 <;> cases f2 <;> rfl
    | cons c rest =>
      have hl : (c :: rest).length = rest.length + 1 := rfl
      cases f1 with
      | zero => exact absurd h1 (by simp [hl])
      | succ g1 =>
        cases f2 with
        | zero => exact absurd h2 (by simp [hl])
        | succ g2 =>
          rw [hardSplitGo, hardSplitGo]
          by_cases hsub : (shrinkToFit limit ((c :: rest).take (estMaxChars limit))).isEmpty
          · rw [if_pos hsub, if_pos hsub]
          · rw [if_neg hsub, if_neg hsub]
            have hpos : 0 < (shrinkToFit limit ((c :: rest).take (estMaxChars limit))).length :=
              List.length_pos.2 (fun he => hsub (by rw [he]; rfl))
            have hdl : ((c :: rest).drop
                (shrinkToFit limit ((c :: rest).take (estMaxChars limit))).length).length =
                (c :: rest).length -
                  (shrinkToFit limit ((c :: rest).take (estMaxChars limit))).length :=
              List.length_drop _ _
            congr 1
            exact ih _ _ _ (by omega) (by omega) (by omega)

theorem hardSplitGo_eq_hardSplit {limit : Nat} {fuel : Nat} {s : List Char}
    (h : s.length ≤ fuel) : hardSplitGo limit fuel s = hardSplit limit s :=
  hardSplitGo_congr s.length s fuel s.length (Nat.le_refl _) h (Nat.le_refl _)

theorem hardSplit_cons (limit : Nat) (c : Char) (rest : List Char) :
    hardSplit limit (c :: rest) =
      if (shrinkToFit limit ((c :: rest).take (estMaxChars limit))).isEmpty then []
      else
        shrinkToFit limit ((c :: rest).take (estMaxChars limit)) ::
          hardSplit limit ((c :: rest).drop
            (shrinkToFit limit ((c :: rest).take (estMaxChars limit))).length) := by
  show hardSplitGo limit (rest.length + 1) (c :: rest) = _
  rw [hardSplitGo]
  by_cases hsub : (shrinkToFit limit ((c :: rest).take (estMaxChars limit))).isEmpty
  · rw [if_pos hsub, if_pos hsub]
  · rw [if_neg hsub, if_neg hsub]
    have hpos : 0 < (shrinkToFit limit ((c :: rest).take (estMaxChars limit))).length :=
      List.length_pos.2 (fun he => hsub (by rw [he]; rfl))
    congr 1
    exact hardSplitGo_eq_hardSplit (by rw [List.length_drop]; simp; omega)

theorem hardSplitGo_chunk_le {limit : Nat} :
    ∀ (fuel : Nat) (s p : List Char), p ∈ hardSplitGo limit fuel s →
      utf8Len p ≤ limit := by
  intro fuel
  induction fuel with
  | zero => intro s p hp; cases s <;> cases hp
  | succ f ih =>
    intro s p hp
    cases s with
    | nil => cases hp
    | cons c rest =>
      rw [hardSplitGo] at hp
      by_cases hsub : (shrinkToFit limit ((c :: rest).take (estMaxChars limit))).isEmpty
      · rw [if_pos hsub] at hp; cases hp
      · rw [if_neg hsub] at hp
        rcases List.mem_cons.1 hp with hp | hp
        · subst hp; exact shrinkToFit_le _ _
        · exact ih _ p hp

theorem hardSplit_chunk_le {limit : Nat} {s p : List Char}
    (hp : p ∈ hardSplit limit s) : utf8Len p ≤ limit :=
  hardSplitGo_chunk_le s.length s p hp

theorem nw_flatten (L : List (List Char)) : (L.map nw).flatten = nw L.flatten := by
  induction L with
  | nil => rfl
  | cons h t ih => simp [nw_append, ih]

theorem take_append_drop_len (s : List Char) (k : Nat) :
    s.take k ++ s.drop (s.take k).length = s := by
  rw [List.length_take]
  rcases Nat.le_total k s.length with h | h
  · rw [min_eq_left h]
    exact List.take_append_drop k s
  · rw [min_eq_right h, List.take_of_length_le h, List.drop_length, List.append_nil]

theorem estMaxChars_pos {limit : Nat} (h : 2 ≤ limit) : 1 ≤ estMaxChars limit := by
  unfold estMaxChars
  omega

theorem hardSplitGo_flatten {limit : Nat} (h2 : 2 ≤ limit) :
    ∀ (fuel : Nat) (s : List Char), s.length ≤ fuel →
      (∀ c ∈ s, c.utf8Size ≤ limit) → (hardSplitGo limit fuel s).flatten = s := by
  intro fuel
  induction fuel with
  | zero =>
    intro s hf _
    have : s = [] := List.length_eq_zero.1 (Nat.le_zero.1 hf)
    subst this
    rfl
  | succ f ih =>
    intro s hf hc
    cases s with
    | nil => rfl
    | cons c rest =>
      rw [hardSplitGo]
      have hest : 1 ≤ estMaxChars limit := estMaxChars_pos h2
      have htake : (c :: rest).take (estMaxChars limit) =
          c :: rest.take (estMaxChars limit - 1) := by
        rcases Nat.exists_eq_add_of_le hest with ⟨e, he⟩
        rw [he, Nat.add_comm, List.take_succ_cons]
        simp
      have hme : shrinkToFit limit ((c :: rest).take (estMaxChars limit)) ≠ [] := by
        rw [htake]
        exact shrinkGo_ne_nil (hc c (List.mem_cons_self _ _)) _ _
      rw [if_neg (fun hh => hme (List.isEmpty_iff.1 hh))]
      rw [List.flatten_cons]
      have hpos : 0 < (shrinkToFit limit ((c :: rest).take (estMaxChars limit))).length :=
        List.length_pos.2 hme
      have hdlen : ((c :: rest).drop
          (shrinkToFit limit ((c :: rest).take (estMaxChars limit))).length).length ≤ f := by
        rw [List.length_drop]
        have : (c :: rest).length = rest.length + 1 := rfl
        omega
      rw [ih _ hdlen (fun x hx => hc x (List.drop_subset _ _ hx))]
      obtain ⟨k, hk⟩ := shrinkToFit_eq_take limit ((c :: rest).take (estMaxChars limit))
      rw [hk, List.take_take]
      exact take_append_drop_len _ _

theorem hardSplit_flatten {limit : Nat} {s : List Char} (h2 : 2 ≤ limit)
    (hc : ∀ c ∈ s, c.utf8Size ≤ limit) : (hardSplit limit s).flatten = s :=
  hardSplitGo_flatten h2 s.length s (Nat.le_refl _) hc

theorem nw_flatten_hardSplit {limit : Nat} {s : List Char} (h2 : 2 ≤ limit)
    (hc : ∀ c ∈ s, c.utf8Size ≤ limit) :
    ((hardSplit limit s).map nw).flatten = nw s := by
  rw [nw_flatten, hardSplit_flatten h2 hc]

theorem hardSplit_nil (limit : Nat) : hardSplit limit [] = [] := rfl

theorem hardSplit_of_small {limit : Nat} (h : limit ≤ 1) (s : List Char) :
    hardSplit limit s = [] := by
  cases s with
  | nil => rfl
  | cons c rest =>
    rw [hardSplit_cons]
    have hest : estMaxChars limit = 0 := by unfold estMaxChars; omega
    rw [hest, List.take_zero]
    rfl

theorem hardSplit_of_first_too_big {limit : Nat} {c : Char} (h : limit < c.utf8Size)
    (cs : List Char) : hardSplit limit (c :: cs) = [] := by
  have hsub : shrinkToFit limit ((c :: cs).take (estMaxChars limit)) = [] := by
    cases hest : estMaxChars limit with
    | zero => rw [List.take_zero]; rfl
    | succ e =>
      rw [List.take_succ_cons]
      obtain ⟨k, hk⟩ := shrinkToFit_eq_take limit (c :: cs.take e)
      have hle := shrinkToFit_le limit (c :: cs.take e)
      cases k with
      | zero => rw [hk, List.take_zero]
      | succ k2 =>
        rw [List.take_succ_cons] at hk
        rw [hk, utf8Len_cons] at hle
        omega
  rw [hardSplit_cons, hsub]
  simp

theorem hardSplitF_eq_some {limit : Nat} :
    ∀ (n : Nat) (s : List Char) (fuel : Nat), s.length ≤ n → s.length ≤ fuel →
      hardSplitF limit fuel s = some (hardSplitGo limit fuel s) := by
  intro n
  induction n with
  | zero =>
    intro s fuel hn _
    have : s = [] := List.length_eq_zero.1 (Nat.le_zero.1 hn)
    subst this
    cases fuel <;> rfl
  | succ n ih =>
    intro s fuel hn hf
    cases s with
    | nil => cases fuel <;> rfl
    | cons c rest =>
      cases fuel with
      | zero => exact absurd hf (by simp)
      | succ g =>
        rw [hardSplitF, hardSplitGo]
        by_cases hsub : (shrinkToFit limit ((c :: rest).take (estMaxChars limit))).isEmpty
        · rw [if_pos hsub, if_pos hsub]
        · rw [if_neg hsub, if_neg hsub]
          have hpos : 0 < (shrinkToFit limit ((c :: rest).take (estMaxChars limit))).length :=
            List.length_pos.2 (fun he => hsub (by rw [he]; rfl))
          have hlen : ((c :: rest).drop
              (shrinkToFit limit ((c :: rest).take (estMaxChars limit))).length).length ≤ n := by
            rw [List.length_drop]
            have : (c :: rest).length = rest.length + 1 := rfl
            omega
          rw [ih _ g hlen (by
            rw [List.length_drop]
            have : (c :: rest).length = rest.length + 1 := rfl
            omega)]
          rfl

theorem flush_le {limit : Nat} {L : List (List Char)} {t : List Char}
    (hL : ∀ c ∈ L, utf8Len c ≤ limit) (htl : utf8Len t ≤ limit) :
    ∀ c ∈ (if t.isEmpty then L else L ++ [t]), utf8Len c ≤ limit := by
  intro c hcm
  by_cases he : t.isEmpty
  · rw [if_pos he] at hcm
    exact hL c hcm
  · rw [if_neg he] at hcm
    rcases List.mem_append.1 hcm with h | h
    · exact hL c h
    · rw [List.mem_singleton.1 h]
      exact htl

theorem sentLoop_sizes {limit : Nat} :
    ∀ (sents chunks : List (List Char)) (temp : List Char),
      (∀ c ∈ chunks, utf8Len c ≤ limit) → utf8Len temp ≤ limit →
      (∀ c ∈ (sentLoop limit sents chunks temp).1, utf8Len c ≤ limit) ∧
        utf8Len (sentLoop limit sents chunks temp).2 ≤ limit := by
  intro sents
  induction sents with
  | nil =>
    intro chunks temp hc ht
    exact ⟨hc, ht⟩
  | cons sent0 rest ih =>
    intro chunks temp hc ht
    simp only [sentLoop]
    by_cases h1 : (strip sent0).isEmpty
    · rw [if_pos h1]
      exact ih chunks temp hc ht
    · rw [if_neg h1]
      by_cases h2 : utf8Len temp + (if temp.isEmpty then 0 else 1) +
          utf8Len (strip sent0) ≤ limit
      · rw [if_pos h2]
        apply ih chunks _ hc
        by_cases h3 : temp.isEmpty
        · rw [if_pos h3]
          rw [if_pos h3] at h2
          omega
        · rw [if_neg h3]
          rw [if_neg h3] at h2
          rw [utf8Len_append, utf8Len_cons]
          have : (' ' : Char).utf8Size = 1 := by decide
          omega
      · rw [if_neg h2]
        have hc1 : ∀ c ∈ (if temp.isEmpty then chunks else chunks ++ [temp]),
            utf8Len c ≤ limit := flush_le hc ht
        by_cases h3 : limit < utf8Len (strip sent0)
        · rw [if_pos h3]
          apply ih _ _ _ (by rw [utf8Len_nil]; exact Nat.zero_le _)
          intro c hcm
          rcases List.mem_append.1 hcm with h | h
          · exact hc1 c h
          · exact hardSplit_chunk_le h
        · rw [if_neg h3]
          exact ih _ _ hc1 (by omega)

theorem handleBigPara_sizes {limit : Nat} {chunks : List (List Char)}
    {para : List Char} (hc : ∀ c ∈ chunks, utf8Len c ≤ limit) :
    ∀ c ∈ handleBigPara limit chunks para, utf8Len c ≤ limit := by
  unfold handleBigPara
  have h := sentLoop_sizes (splitSent para) chunks []
    hc (by rw [utf8Len_nil]; exact Nat.zero_le _)
  exact flush_le h.1 h.2

theorem paraLoop_sizes {limit : Nat} :
    ∀ (paras chunks : List (List Char)) (cur : List Char),
      (∀ c ∈ chunks, utf8Len c ≤ limit) → utf8Len cur ≤ limit →
      (∀ c ∈ (paraLoop limit paras chunks cur).1, utf8Len c ≤ limit) ∧
        utf8Len (paraLoop limit paras chunks cur).2 ≤ limit := by
  intro paras
  induction paras with
  | nil =>
    intro chunks cur hc ht
    exact ⟨hc, ht⟩
  | cons para0 rest ih =>
    intro chunks cur hc ht
    simp only [paraLoop]
    by_cases h1 : (strip para0).isEmpty
    · rw [if_pos h1]
      exact ih chunks cur hc ht
    · rw [if_neg h1]
      by_cases h2 : utf8Len cur + (if cur.isEmpty then 0 else 2) +
          utf8Len (strip para0) ≤ limit
      · rw [if_pos h2]
        apply ih chunks _ hc
        by_cases h3 : cur.isEmpty
        · rw [if_pos h3]
          rw [if_pos h3] at h2
          omega
        · rw [if_neg h3]
          rw [if_neg h3] at h2
          rw [utf8Len_append, utf8Len_cons, utf8Len_cons]
          have : ('\n' : Char).utf8Size = 1 := by decide
          omega
      · rw [if_neg h2]
        have hc1 : ∀ c ∈ (if cur.isEmpty then chunks else chunks ++ [cur]),
            utf8Len c ≤ limit := flush_le hc ht
        by_cases h3 : limit < utf8Len (strip para0)
        · rw [if_pos h3]
          exact ih _ _ (handleBigPara_sizes hc1) (by rw [utf8Len_nil]; exact Nat.zero_le _)
        · rw [if_neg h3]
          exact ih _ _ hc1 (by omega)

theorem chunkText_sizes {limit : Nat} {text : List Char} :
    ∀ c ∈ chunkText limit text, utf8Len c ≤ limit := by
  intro c hcm
  unfold chunkText at hcm
  by_cases he : text.isEmpty
  · rw [if_pos he] at hcm
    cases hcm
  · rw [if_neg he] at hcm
    have h := @paraLoop_sizes limit (splitPP text) [] []
      (by intro x hx; cases hx) (by rw [utf8Len_nil]; exact Nat.zero_le _)
    exact flush_le h.1 h.2 c (List.mem_filter.1 hcm).1

theorem flatten_map_nw_flush (L : List (List Char)) (t : List Char) :
    ((if t.isEmpty then L else L ++ [t]).map nw).flatten =
      (L.map nw).flatten ++ nw t := by
  by_cases he : t.isEmpty
  · rw [if_pos he, List.isEmpty_iff.1 he]
    simp [nw_nil]
  · rw [if_neg he]
    simp

theorem flatten_map_nw_filter (L : List (List Char)) :
    ((L.filter fun c => !(strip c).isEmpty).map nw).flatten = (L.map nw).flatten := by
  induction L with
  | nil => rfl
  | cons h t ih =>
    rw [List.filter_cons]
    by_cases hh : (strip h).isEmpty
    · have hb : (!(strip h).isEmpty) = false := by rw [hh]; rfl
      rw [hb]
      simp only [Bool.false_eq_true, if_false, ih, List.map_cons, List.flatten_cons,
        nw_eq_nil_of_strip_eq_nil hh, List.nil_append]
    · have hb : (!(strip h).isEmpty) = true := by
        cases hx : (strip h).isEmpty
        · rfl
        · exact absurd hx hh
      rw [hb]
      simp only [if_true, List.map_cons, List.flatten_cons, ih]

theorem nw_space_cons {c : Char} (h : isSpace c = true) (s : List Char) :
    nw (c :: s) = nw s := by
  rw [nw_cons, if_pos h]

theorem sentLoop_content {limit : Nat} (hl : 2 ≤ limit) :
    ∀ (sents chunks : List (List Char)) (temp : List Char),
      (∀ s ∈ sents, ∀ c ∈ s, c.utf8Size ≤ limit) →
      ((sentLoop limit sents chunks temp).1.map nw).flatten ++
          nw (sentLoop limit sents chunks temp).2 =
        (chunks.map nw).flatten ++ nw temp ++ ((sents.map nw).flatten) := by
  intro sents
  induction sents with
  | nil =>
    intro chunks temp _
    simp [sentLoop]
  | cons sent0 rest ih =>
    intro chunks temp hch
    have hch0 : ∀ c ∈ strip sent0, c.utf8Size ≤ limit := fun c hc =>
      hch sent0 (List.mem_cons_self _ _) c (mem_of_mem_strip hc)
    have hchr : ∀ s ∈ rest, ∀ c ∈ s, c.utf8Size ≤ limit := fun s hs =>
      hch s (List.mem_cons_of_mem _ hs)
    have hnss : nw (strip sent0) = nw sent0 := nw_strip sent0
    simp only [sentLoop, List.map_cons, List.flatten_cons]
    by_cases h1 : (strip sent0).isEmpty
    · rw [if_pos h1, ih chunks temp hchr, nw_eq_nil_of_strip_eq_nil h1]
      simp
    · rw [if_neg h1]
      by_cases hacc : utf8Len temp + (if temp.isEmpty then 0 else 1) +
          utf8Len (strip sent0) ≤ limit
      · rw [if_pos hacc, ih chunks _ hchr]
        have htmp : nw (if temp.isEmpty then strip sent0
            else temp ++ ' ' :: strip sent0) = nw temp ++ nw sent0 := by
          by_cases h3 : temp.isEmpty
          · rw [if_pos h3, List.isEmpty_iff.1 h3, nw_nil, List.nil_append, hnss]
          · rw [if_neg h3, nw_append, nw_space_cons (by decide), hnss]
        rw [htmp]
        simp [List.append_assoc]
      · rw [if_neg hacc]
        by_cases h3 : limit < utf8Len (strip sent0)
        · rw [if_pos h3, ih _ _ hchr]
          rw [List.map_append, List.flatten_append, flatten_map_nw_flush,
            nw_flatten_hardSplit hl hch0, hnss, nw_nil]
          simp [List.append_assoc]
        · rw [if_neg h3, ih _ _ hchr, flatten_map_nw_flush, hnss]
          simp [List.append_assoc]

theorem handleBigPara_content {limit : Nat} {para : List Char} (hl : 2 ≤ limit)
    (hch : ∀ c ∈ para, c.utf8Size ≤ limit) (chunks : List (List Char)) :
    ((handleBigPara limit chunks para).map nw).flatten =
      (chunks.map nw).flatten ++ nw para := by
  unfold handleBigPara
  have h := sentLoop_content hl (splitSent para) chunks []
    (fun s hs c hc => hch c (mem_of_mem_splitSent hs hc))
  rw [flatten_map_nw_flush, h, nw_flatten_splitSent, nw_nil, List.append_nil]

theorem paraLoop_content {limit : Nat} (hl : 2 ≤ limit) :
    ∀ (paras chunks : List (List Char)) (cur : List Char),
      (∀ p ∈ paras, ∀ c ∈ p, c.utf8Size ≤ limit) →
      ((paraLoop limit paras chunks cur).1.map nw).flatten ++
          nw (paraLoop limit paras chunks cur).2 =
        (chunks.map nw).flatten ++ nw cur ++ ((paras.map nw).flatten) := by
  intro paras
  induction paras with
  | nil =>
    intro chunks cur _
    simp [paraLoop]
  | cons para0 rest ih =>
    intro chunks cur hch
    have hch0 : ∀ c ∈ strip para0, c.utf8Size ≤ limit := fun c hc =>
      hch para0 (List.mem_cons_self _ _) c (mem_of_mem_strip hc)
    have hchr : ∀ p ∈ rest, ∀ c ∈ p, c.utf8Size ≤ limit := fun p hp =>
      hch p (List.mem_cons_of_mem _ hp)
    have hnss : nw (strip para0) = nw para0 := nw_strip para0
    simp only [paraLoop, List.map_cons, List.flatten_cons]
    by_cases h1 : (strip para0).isEmpty
    · rw [if_pos h1, ih chunks cur hchr, nw_eq_nil_of_strip_eq_nil h1]
      simp
    · rw [if_neg h1]
      by_cases hacc : utf8Len cur + (if cur.isEmpty then 0 else 2) +
          utf8Len (strip para0) ≤ limit
      · rw [if_pos hacc, ih chunks _ hchr]
        have htmp : nw (if cur.isEmpty then strip para0
            else cur ++ '\n' :: '\n' :: strip para0) = nw cur ++ nw para0 := by
          by_cases h3 : cur.isEmpty
          · rw [if_pos h3, List.isEmpty_iff.1 h3, nw_nil, List.nil_append, hnss]
          · rw [if_neg h3, nw_append, nw_space_cons (by decide),
              nw_space_cons (by decide), hnss]
        rw [htmp]
        simp [List.append_assoc]
      · rw [if_neg hacc]
        by_cases h3 : limit < utf8Len (strip para0)
        · rw [if_pos h3, ih _ _ hchr, handleBigPara_content hl hch0,
            flatten_map_nw_flush, hnss, nw_nil]
          simp [List.append_assoc]
        · rw [if_neg h3, ih _ _ hchr, flatten_map_nw_flush, hnss]
          simp [List.append_assoc]

theorem chunkText_content {limit : Nat} {text : List Char} (hl : 2 ≤ limit)
    (hch : ∀ c ∈ text, c.utf8Size ≤ limit) :
    ((chunkText limit text).map nw).flatten = nw text := by
  unfold chunkText
  by_cases he : text.isEmpty
  · rw [if_pos he, List.isEmpty_iff.1 he]
    rfl
  · rw [if_neg he]
    have h := paraLoop_content hl (splitPP text) [] []
      (fun p hp c hc => hch c (mem_of_mem_splitPP p hp hc))
    rw [flatten_map_nw_filter, flatten_map_nw_flush, h, nw_flatten_splitPP]
    simp [nw_nil]

theorem joinPP_nil : joinPP [] = [] := rfl

theorem joinPP_singleton (p : List Char) : joinPP [p] = p := by
  simp [joinPP, List.intercalate]

theorem joinPP_cons_cons (a b : List Char) (t : List (List Char)) :
    joinPP (a :: b :: t) = a ++ '\n' :: '\n' :: joinPP (b :: t) := by
  simp [joinPP, List.intercalate]

theorem joinPP_append_singleton (xs : List (List Char)) (p : List Char) :
    joinPP (xs ++ [p]) =
      if xs.isEmpty then p else joinPP xs ++ '\n' :: '\n' :: p := by
  induction xs with
  | nil => simp [joinPP_singleton]
  | cons a t ih =>
    cases t with
    | nil => simp [joinPP_cons_cons, joinPP_singleton]
    | cons b t2 =>
      have h1 : (a :: b :: t2) ++ [p] = a :: ((b :: t2) ++ [p]) := rfl
      rw [h1]
      have h2 : (b :: t2) ++ [p] = b :: (t2 ++ [p]) := rfl
      rw [h2, joinPP_cons_cons]
      rw [← h2, ih, joinPP_cons_cons]
      simp

theorem paraLoop2_inv {m : Nat} {paras0 : List (List Char)} :
    ∀ (l chunks curs : List (List Char)) (cnt : Nat),
      (∀ p ∈ l, p ∈ paras0) →
      (∀ c ∈ chunks, c.length ≤ m ∨ c ∈ paras0) →
      cnt = (joinPP curs).length →
      (¬curs.isEmpty → cnt ≤ m) →
      (∀ c ∈ (paraLoop2 m l chunks curs cnt).1, c.length ≤ m ∨ c ∈ paras0) ∧
        (paraLoop2 m l chunks curs cnt).2.2 =
          (joinPP (paraLoop2 m l chunks curs cnt).2.1).length ∧
        (¬(paraLoop2 m l chunks curs cnt).2.1.isEmpty →
          (paraLoop2 m l chunks curs cnt).2.2 ≤ m) := by
  intro l
  induction l with
  | nil =>
    intro chunks curs cnt _ hc hcnt hbound
    exact ⟨hc, hcnt, hbound⟩
  | cons p rest ih =>
    intro chunks curs cnt hmem hc hcnt hbound
    have hmemp : p ∈ paras0 := hmem p (List.mem_cons_self _ _)
    have hmemr : ∀ q ∈ rest, q ∈ paras0 := fun q hq => hmem q (List.mem_cons_of_mem _ hq)
    simp only [paraLoop2]
    by_cases h1 : (strip p).isEmpty
    · rw [if_pos h1]
      exact ih chunks curs cnt hmemr hc hcnt hbound
    · rw [if_neg h1]
      by_cases hcl : ¬curs.isEmpty ∧ m < cnt + p.length + 2
      · rw [if_pos hcl]
        simp only
        have hc2 : ∀ c ∈ chunks ++ [joinPP curs], c.length ≤ m ∨ c ∈ paras0 := by
          intro c hcm
          rcases List.mem_append.1 hcm with h | h
          · exact hc c h
          · rw [List.mem_singleton.1 h]
            left
            rw [← hcnt]
            exact hbound hcl.1
        by_cases hsing : m < p.length ∧ ([] ++ [p] : List (List Char)).length = 1
        · rw [if_pos hsing]
          apply ih _ [] 0 hmemr _ rfl (by intro h; exact absurd rfl h)
          intro c hcm
          rcases List.mem_append.1 hcm with h | h
          · exact hc2 c h
          · rw [List.mem_singleton.1 h]
            right
            simpa [joinPP_singleton] using hmemp
        · rw [if_neg hsing]
          apply ih _ ([] ++ [p]) _ hmemr hc2
          · rw [joinPP_append_singleton]
            simp
          · intro _
            have hple : ¬m < p.length := by
              intro hgt
              exact hsing ⟨hgt, rfl⟩
            have hd : ¬(1 : Nat) < (([] : List (List Char)) ++ [p]).length := by
              simp
            rw [if_neg hd]
            omega
      · rw [if_neg hcl]
        simp only
        by_cases hsing : m < p.length ∧ (curs ++ [p]).length = 1
        · rw [if_pos hsing]
          apply ih _ [] 0 hmemr _ rfl (by intro h; exact absurd rfl h)
          intro c hcm
          rcases List.mem_append.1 hcm with h | h
          · exact hc c h
          · rw [List.mem_singleton.1 h]
            right
            have hcurs : curs = [] := by
              have := hsing.2
              rw [List.length_append, List.length_singleton] at this
              exact List.length_eq_zero.1 (by omega)
            rw [hcurs]
            simpa [joinPP_singleton] using hmemp
        · rw [if_neg hsing]
          have hlen2 : cnt + p.length + (if 1 < (curs ++ [p]).length then 2 else 0) =
              (joinPP (curs ++ [p])).length ∧
              cnt + p.length + (if 1 < (curs ++ [p]).length then 2 else 0) ≤ m := by
            by_cases hce : curs.isEmpty
            · have hcurs : curs = [] := List.isEmpty_iff.1 hce
              subst hcurs
              have hcnt0 : cnt = 0 := by rw [hcnt]; rfl
              subst hcnt0
              constructor
              · simp [joinPP_singleton]
              · have hple : ¬m < p.length := by
                  intro hgt
                  exact hsing ⟨hgt, rfl⟩
                have hd : ¬(1 : Nat) < (([] : List (List Char)) ++ [p]).length := by
                  simp
                rw [if_neg hd]
                omega
            · have hfit : cnt + p.length + 2 ≤ m := by
                rcases Nat.lt_or_ge m (cnt + p.length + 2) with h | h
                · exact absurd ⟨hce, h⟩ hcl
                · omega
              have hcne : curs ≠ [] := fun h => hce (by rw [h]; rfl)
              have hlt : 1 < (curs ++ [p]).length := by
                rw [List.length_append, List.length_singleton]
                have := List.length_pos.2 hcne
                omega
              rw [if_pos hlt]
              constructor
              · rw [joinPP_append_singleton, if_neg hce, List.length_append, hcnt]
                simp
                omega
              · omega
          exact ih _ (curs ++ [p]) _ hmemr hc hlen2.1 (fun _ => hlen2.2)

theorem chunkTextByParagraphs_bound {m : Nat} {text : List Char} :
    ∀ c ∈ chunkTextByParagraphs m text, c.length ≤ m ∨ c ∈ splitPP text := by
  intro c hcm
  simp only [chunkTextByParagraphs] at hcm
  have h := @paraLoop2_inv m (splitPP text) (splitPP text) [] [] 0
    (fun p hp => hp) (by intro x hx; cases hx) rfl (fun _ => Nat.zero_le m)
  have hcm2 := (List.mem_filter.1 hcm).1
  by_cases hce : (paraLoop2 m (splitPP text) [] [] 0).2.1.isEmpty
  · rw [if_pos hce] at hcm2
    exact h.1 c hcm2
  · rw [if_neg hce] at hcm2
    rcases List.mem_append.1 hcm2 with hm | hm
    · exact h.1 c hm
    · rw [List.mem_singleton.1 hm]
      left
      rw [← h.2.1]
      exact h.2.2 hce

theorem char_valid_ranges (c : Char) :
    c.toNat < 55296 ∨ (57343 < c.toNat ∧ c.toNat < 1114112) := by
  have hv := c.valid
  unfold UInt32.isValidChar Nat.isValidChar at hv
  rcases hv with h | h
  · left
    exact h
  · right
    exact h

theorem utf8DecodeOne_charBytes (c : Char) (bs : List Nat) :
    utf8DecodeOne (charBytes c ++ bs) = some (c.toNat, bs) := by
  have hv := char_valid_ranges c
  by_cases h1 : c.toNat < 128
  · have hcb : charBytes c = [c.toNat] := by simp [charBytes, h1]
    rw [hcb, List.cons_append, List.nil_append]
    simp only [utf8DecodeOne]
    rw [if_pos h1]
  · by_cases h2 : c.toNat < 2048
    · have hcb : charBytes c = [192 + c.toNat / 64, 128 + c.toNat % 64] := by
        simp [charBytes, h1, h2]
      rw [hcb, List.cons_append, List.cons_append, List.nil_append]
      simp only [utf8DecodeOne]
      rw [if_neg (by omega), if_neg (by omega), if_pos (by omega : 192 + c.toNat / 64 < 224),
        if_pos (by simp [isCont]; omega), if_pos (by omega)]
      have harith : (192 + c.toNat / 64 - 192) * 64 + (128 + c.toNat % 64 - 128) =
          c.toNat := by omega
      rw [harith]
    · by_cases h3 : c.toNat < 65536
      · have hcb : charBytes c =
            [224 + c.toNat / 4096, 128 + c.toNat / 64 % 64, 128 + c.toNat % 64] := by
          simp [charBytes, h1, h2, h3]
        rw [hcb, List.cons_append, List.cons_append, List.cons_append, List.nil_append]
        simp only [utf8DecodeOne]
        have harith : (224 + c.toNat / 4096 - 224) * 4096 +
            (128 + c.toNat / 64 % 64 - 128) * 64 + (128 + c.toNat % 64 - 128) =
            c.toNat := by omega
        rw [if_neg (by omega), if_neg (by omega), if_neg (by omega),
          if_pos (by omega : 224 + c.toNat / 4096 < 240),
          if_pos (by constructor <;> (simp [isCont]; omega)),
          if_pos (by rw [harith]; omega)]
        rw [harith]
      · have hcb : charBytes c =
            [240 + c.toNat / 262144, 128 + c.toNat / 4096 % 64,
              128 + c.toNat / 64 % 64, 128 + c.toNat % 64] := by
          simp [charBytes, h1, h2, h3]
        rw [hcb, List.cons_append, List.cons_append, List.cons_append, List.cons_append,
          List.nil_append]
        simp only [utf8DecodeOne]
        have harith : (240 + c.toNat / 262144 - 240) * 262144 +
            (128 + c.toNat / 4096 % 64 - 128) * 4096 +
            (128 + c.toNat / 64 % 64 - 128) * 64 + (128 + c.toNat % 64 - 128) =
            c.toNat := by omega
        rw [if_neg (by omega), if_neg (by omega), if_neg (by omega), if_neg (by omega),
          if_pos (by omega : 240 + c.toNat / 262144 < 248),
          if_pos (by refine ⟨?_, ?_, ?_⟩ <;> (simp [isCont]; omega)),
          if_pos (by rw [harith]; omega)]
        rw [harith]

theorem charBytes_ne_nil (c : Char) : charBytes c ≠ [] := by
  unfold charBytes
  by_cases h1 : c.toNat < 128
  · simp [h1]
  · by_cases h2 : c.toNat < 2048
    · simp [h1, h2]
    · by_cases h3 : c.toNat < 65536
      · simp [h1, h2, h3]
      · simp [h1, h2, h3]

theorem utf8DecodeGo_encode :
    ∀ (cs : List Char) (fuel : Nat), (utf8Encode cs).length ≤ fuel →
      utf8DecodeGo fuel (utf8Encode cs) = some (cs.map Char.toNat) := by
  intro cs
  induction cs with
  | nil =>
    intro fuel _
    have he : utf8Encode [] = [] := rfl
    rw [he]
    cases fuel <;> rfl
  | cons c rest ih =>
    intro fuel hf
    have he : utf8Encode (c :: rest) = charBytes c ++ utf8Encode rest := by
      simp [utf8Encode]
    cases hcb : charBytes c with
    | nil => exact absurd hcb (charBytes_ne_nil c)
    | cons b0 tl =>
      rw [he, hcb, List.cons_append]
      rw [he, hcb] at hf
      have hlen : (charBytes c ++ utf8Encode rest).length =
          (charBytes c).length + (utf8Encode rest).length := List.length_append _ _
      rw [hcb] at hlen
      have hlc : (b0 :: tl ++ utf8Encode rest).length =
          tl.length + 1 + (utf8Encode rest).length := by
        rw [List.cons_append]
        simp [List.length_append]
        omega
      cases fuel with
      | zero =>
        rw [List.cons_append] at hf
        simp at hf
      | succ f =>
        have hone : utf8DecodeOne (b0 :: (tl ++ utf8Encode rest)) =
            some (c.toNat, utf8Encode rest) := by
          rw [← List.cons_append, ← hcb]
          exact utf8DecodeOne_charBytes c _
        simp only [utf8DecodeGo, hone]
        rw [ih f (by rw [List.cons_append] at hf; simp [hlc] at hf; omega)]
        rfl

theorem utf8Decode_encode (cs : List Char) :
    utf8Decode (utf8Encode cs) = some (cs.map Char.toNat) :=
  utf8DecodeGo_encode cs _ (Nat.le_refl _)

theorem FS.get_write_self (fs : FS) (p : MP3Path) (n : Nat) :
    (fs.write p n).get p = some n := by
  simp [FS.write, FS.get]

theorem FS.get_remove_ne {q p : MP3Path} (h : p ≠ q) :
    ∀ fs : FS, (fs.remove q).get p = fs.get p := by
  intro fs
  induction fs with
  | nil => rfl
  | cons e rest ih =>
    obtain ⟨r, n⟩ := e
    simp only [FS.remove]
    by_cases hr : r = q
    · rw [if_pos hr]
      rw [ih]
      simp only [FS.get]
      rw [if_neg (by rw [hr]; exact fun hh => h hh.symm)]
    · rw [if_neg hr]
      simp only [FS.get]
      by_cases hrp : r = p
      · rw [if_pos hrp, if_pos hrp]
      · rw [if_neg hrp, if_neg hrp, ih]

theorem FS.get_remove_self (q : MP3Path) : ∀ fs : FS, (fs.remove q).get q = none := by
  intro fs
  induction fs with
  | nil => rfl
  | cons e rest ih =>
    obtain ⟨r, n⟩ := e
    simp only [FS.remove]
    by_cases hr : r = q
    · rw [if_pos hr]
      exact ih
    · rw [if_neg hr]
      simp only [FS.get]
      rw [if_neg hr]
      exact ih

theorem FS.get_write_ne {fs : FS} {q p : MP3Path} {n : Nat} (h : p ≠ q) :
    (fs.write q n).get p = fs.get p := by
  simp only [FS.write, FS.get]
  rw [if_neg (fun hh => h hh.symm)]
  exact FS.get_remove_ne h fs

theorem FS.removeList_cons (fs : FS) (q : MP3Path) (rest : List MP3Path) :
    fs.removeList (q :: rest) = (fs.remove q).removeList rest := rfl

theorem FS.get_removeList_not_mem {p : MP3Path} :
    ∀ (ps : List MP3Path) (fs : FS), p ∉ ps → (fs.removeList ps).get p = fs.get p := by
  intro ps
  induction ps with
  | nil => intro fs _; rfl
  | cons q rest ih =>
    intro fs hp
    rw [FS.removeList_cons]
    have h1 : p ≠ q := fun hh => hp (by rw [hh]; exact List.mem_cons_self _ _)
    have h2 : p ∉ rest := fun hh => hp (List.mem_cons_of_mem _ hh)
    rw [ih _ h2]
    exact FS.get_remove_ne h1 fs

theorem FS.get_removeList_mem {p : MP3Path} :
    ∀ (ps : List MP3Path) (fs : FS), p ∈ ps → (fs.removeList ps).get p = none := by
  intro ps
  induction ps with
  | nil => intro fs hp; cases hp
  | cons q rest ih =>
    intro fs hp
    rw [FS.removeList_cons]
    by_cases h2 : p ∈ rest
    · exact ih _ h2
    · have h1 : p = q := by
        rcases List.mem_cons.1 hp with h | h
        · exact h
        · exact absurd h h2
      subst h1
      rw [FS.get_removeList_not_mem rest _ h2]
      exact FS.get_remove_self p fs

theorem mem_enumFrom {α : Type} {ic : Nat × α} :
    ∀ (l : List α) (i₀ : Nat), ic ∈ enumFrom i₀ l → i₀ ≤ ic.1 ∧ ic.2 ∈ l := by
  intro l
  induction l with
  | nil => intro i₀ h; cases h
  | cons a rest ih =>
    intro i₀ h
    rcases List.mem_cons.1 h with h | h
    · rw [h]
      exact ⟨Nat.le_refl _, List.mem_cons_self _ _⟩
    · have := ih (i₀ + 1) h
      exact ⟨by omega, List.mem_cons_of_mem _ this.2⟩

theorem enumFrom_length {α : Type} : ∀ (l : List α) (i₀ : Nat),
    (enumFrom i₀ l).length = l.length := by
  intro l
  induction l with
  | nil => intro _; rfl
  | cons a rest ih =>
    intro i₀
    simp only [enumFrom, List.length_cons, ih]

theorem partsFor_length (chunks : List (List Char)) :
    (partsFor chunks).length = chunks.length := by
  rw [partsFor, List.length_map, enumFrom_length]

theorem mem_partsFor {chunks : List (List Char)} {p : MP3Path}
    (h : p ∈ partsFor chunks) : ∃ i, 1 ≤ i ∧ p = .part i := by
  rw [partsFor] at h
  rcases List.mem_map.1 h with ⟨ic, hic, hp⟩
  exact ⟨ic.1, (mem_enumFrom chunks 1 hic).1, hp.symm⟩

theorem mem_validParts {fs : FS} {names : List MP3Path} {p : MP3Path} :
    p ∈ validParts fs names ↔
      p ∈ names ∧ fs.hasFile p = true ∧ 0 < fs.size p := by
  rw [validParts, List.mem_filter]
  simp only [Bool.and_eq_true, decide_eq_true_eq]

theorem validParts_all {fs : FS} {names : List MP3Path}
    (h : ∀ p ∈ names, fs.hasFile p = true ∧ 0 < fs.size p) :
    validParts fs names = names := by
  rw [validParts, List.filter_eq_self]
  intro p hp
  simp only [Bool.and_eq_true, decide_eq_true_eq]
  exact h p hp

theorem synthGo_cons_skip (env : SynthEnv) {i : Nat} {fs : FS} (c : List Char)
    (rest : List (Nat × List Char)) (calls : Nat)
    (hhas : fs.hasFile (.part i) = true) (hsz : 0 < fs.size (.part i)) :
    synthGo env false ((i, c) :: rest) fs calls = synthGo env false rest fs calls := by
  simp only [synthGo]
  rw [if_pos (by exact ⟨by trivial, hhas, hsz⟩)]

theorem synthGo_cons_fresh (env : SynthEnv) {i : Nat} {c : List Char} {fs : FS} {n : Nat}
    (rest : List (Nat × List Char)) (calls : Nat)
    (hget : fs.get (.part i) = none) (hsn : env.synth c = some n) :
    synthGo env false ((i, c) :: rest) fs calls =
      synthGo env false rest (fs.write (.part i) n) (calls + 1) := by
  simp only [synthGo]
  rw [if_neg (by
    intro hcond
    have h2 := hcond.2.1
    rw [FS.hasFile, hget] at h2
    cases h2)]
  rw [hsn]

theorem synthGo_skip_all (env : SynthEnv) :
    ∀ (l : List (Nat × List Char)) (fs : FS) (calls : Nat),
      (∀ ic ∈ l, fs.hasFile (.part ic.1) = true ∧ 0 < fs.size (.part ic.1)) →
      synthGo env false l fs calls = (fs, calls) := by
  intro l
  induction l with
  | nil => intro fs calls _; rfl
  | cons ic rest ih =>
    intro fs calls h
    obtain ⟨i, c⟩ := ic
    have h1 := h (i, c) (List.mem_cons_self _ _)
    rw [synthGo_cons_skip env c rest calls h1.1 h1.2]
    exact ih fs calls (fun jc hjc => h jc (List.mem_cons_of_mem _ hjc))

theorem synthGo_fresh (env : SynthEnv) :
    ∀ (cs : List (List Char)) (i₀ : Nat) (fs : FS) (calls : Nat),
      (∀ ic ∈ enumFrom i₀ cs, fs.get (.part ic.1) = none) →
      (∀ c ∈ cs, ∃ n, env.synth c = some n) →
      (synthGo env false (enumFrom i₀ cs) fs calls).2 = calls + cs.length ∧
      (∀ p : MP3Path, (∀ ic ∈ enumFrom i₀ cs, p ≠ .part ic.1) →
        (synthGo env false (enumFrom i₀ cs) fs calls).1.get p = fs.get p) ∧
      (∀ ic ∈ enumFrom i₀ cs,
        (synthGo env false (enumFrom i₀ cs) fs calls).1.get (.part ic.1) =
          env.synth ic.2) := by
  intro cs
  induction cs with
  | nil =>
    intro i₀ fs calls _ _
    refine ⟨rfl, fun p _ => rfl, fun ic hic => absurd hic (by simp [enumFrom])⟩
  | cons c rest ih =>
    intro i₀ fs calls hget hsucc
    have henum : enumFrom i₀ (c :: rest) = (i₀, c) :: enumFrom (i₀ + 1) rest := rfl
    obtain ⟨n, hsn⟩ := hsucc c (List.mem_cons_self _ _)
    have hget0 : fs.get (.part i₀) = none :=
      hget (i₀, c) (by rw [henum]; exact List.mem_cons_self _ _)
    rw [henum, synthGo_cons_fresh env _ calls hget0 hsn]
    have hget1 : ∀ ic ∈ enumFrom (i₀ + 1) rest,
        (fs.write (.part i₀) n).get (.part ic.1) = none := by
      intro ic hic
      have hge := (mem_enumFrom rest (i₀ + 1) hic).1
      rw [FS.get_write_ne (by intro hh; injection hh with hh2; omega)]
      exact hget ic (by rw [henum]; exact List.mem_cons_of_mem _ hic)
    have hsucc1 : ∀ x ∈ rest, ∃ m, env.synth x = some m :=
      fun x hx => hsucc x (List.mem_cons_of_mem _ hx)
    obtain ⟨hcalls, huntouched, hparts⟩ := ih (i₀ + 1) (fs.write (.part i₀) n)
      (calls + 1) hget1 hsucc1
    refine ⟨by rw [hcalls]; simp [List.length_cons]; omega, ?_, ?_⟩
    · intro p hp
      rw [huntouched p (fun ic hic => hp ic (List.mem_cons_of_mem _ hic))]
      exact FS.get_write_ne (hp (i₀, c) (List.mem_cons_self _ _))
    · intro ic hic
      rcases List.mem_cons.1 hic with h | h
      · subst h
        rw [huntouched (MP3Path.part i₀) (by
          intro jc hjc
          have hge := (mem_enumFrom rest (i₀ + 1) hjc).1
          intro hh
          injection hh with hh2
          omega)]
        rw [FS.get_write_self, hsn]
      · exact hparts ic h

theorem validFor_ne_nil_chunks {env : SynthEnv} {ow : Bool} {limit : Nat}
    {text : List Char} {fs0 : FS} (h : validFor env ow limit text fs0 ≠ []) :
    (chunkText limit text).isEmpty = false := by
  cases hx : chunkText limit text with
  | nil =>
    exfalso
    apply h
    unfold validFor validParts partsFor afterSynth
    rw [hx]
    rfl
  | cons a l => rfl

theorem synthesizeToMp3_combineFail (env : SynthEnv) (ow : Bool) (limit : Nat)
    (text : List Char) (fs0 : FS)
    (hstrip : (strip text).isEmpty = false)
    (hlen : 1 < (validFor env ow limit text fs0).length)
    (hfast : ¬(ow = false ∧ (afterSynth env ow limit text fs0).1.hasFile .full = true))
    (hcomb : env.combineSize = none) :
    synthesizeToMp3 env ow limit text fs0 =
      ⟨validFor env ow limit text fs0,
        ((afterSynth env ow limit text fs0).1.write .concatList 1).remove .concatList,
        (afterSynth env ow limit text fs0).2, 1⟩ := by
  have hvne : validFor env ow limit text fs0 ≠ [] := by
    intro hh
    rw [hh] at hlen
    simp at hlen
  have hchunks := validFor_ne_nil_chunks hvne
  simp only [synthesizeToMp3]
  rw [if_neg (by rw [hstrip]; simp), if_neg (by rw [hchunks]; simp),
    if_neg (fun hh => hvne (List.isEmpty_iff.1 hh)), if_pos hlen, if_neg hfast, hcomb]

theorem synthesizeToMp3_combineOk (env : SynthEnv) (ow : Bool) (limit : Nat)
    (text : List Char) (fs0 : FS) (n : Nat)
    (hstrip : (strip text).isEmpty = false)
    (hlen : 1 < (validFor env ow limit text fs0).length)
    (hfast : ¬(ow = false ∧ (afterSynth env ow limit text fs0).1.hasFile .full = true))
    (hcomb : env.combineSize = some n) :
    synthesizeToMp3 env ow limit text fs0 =
      ⟨[.full],
        ((((afterSynth env ow limit text fs0).1.write .concatList 1).write .full n).removeList
            (validFor env ow limit text fs0)).remove .concatList,
        (afterSynth env ow limit text fs0).2, 1⟩ := by
  have hvne : validFor env ow limit text fs0 ≠ [] := by
    intro hh
    rw [hh] at hlen
    simp at hlen
  have hchunks := validFor_ne_nil_chunks hvne
  simp only [synthesizeToMp3]
  rw [if_neg (by rw [hstrip]; simp), if_neg (by rw [hchunks]; simp),
    if_neg (fun hh => hvne (List.isEmpty_iff.1 hh)), if_pos hlen, if_neg hfast, hcomb]

theorem synthesizeToMp3_fullFast (env : SynthEnv) (ow : Bool) (limit : Nat)
    (text : List Char) (fs0 : FS)
    (hstrip : (strip text).isEmpty = false)
    (hlen : 1 < (validFor env ow limit text fs0).length)
    (hfast : ow = false ∧ (afterSynth env ow limit text fs0).1.hasFile .full = true) :
    synthesizeToMp3 env ow limit text fs0 =
      ⟨[.full], (afterSynth env ow limit text fs0).1,
        (afterSynth env ow limit text fs0).2, 0⟩ := by
  have hvne : validFor env ow limit text fs0 ≠ [] := by
    intro hh
    rw [hh] at hlen
    simp at hlen
  have hchunks := validFor_ne_nil_chunks hvne
  simp only [synthesizeToMp3]
  rw [if_neg (by rw [hstrip]; simp), if_neg (by rw [hchunks]; simp),
    if_neg (fun hh => hvne (List.isEmpty_iff.1 hh)), if_pos hlen, if_pos hfast]

theorem synthesizeToMp3_single_paths (env : SynthEnv) (ow : Bool) (limit : Nat)
    (text : List Char) (fs0 : FS)
    (hstrip : (strip text).isEmpty = false)
    (hlen : (validFor env ow limit text fs0).length = 1)
    (hren : env.renameOk = true) :
    (synthesizeToMp3 env ow limit text fs0).paths = [.single] := by
  obtain ⟨p, hp⟩ := List.length_eq_one.1 hlen
  have hpmem : p ∈ validFor env ow limit text fs0 := by
    rw [hp]
    exact List.mem_cons_self _ _
  obtain ⟨i, _, hpi⟩ := mem_partsFor (mem_validParts.1 hpmem).1
  have hpns : p ≠ .single := by
    rw [hpi]
    intro hh
    cases hh
  have hvne : validFor env ow limit text fs0 ≠ [] := by
    rw [hp]
    intro hh
    cases hh
  have hchunks := validFor_ne_nil_chunks hvne
  simp only [synthesizeToMp3]
  rw [if_neg (by rw [hstrip]; simp), if_neg (by rw [hchunks]; simp),
    if_neg (fun hh => hvne (List.isEmpty_iff.1 hh)),
    if_neg (by rw [hlen]; omega), hp]
  have hhead : ([p] : List MP3Path).headD .single = p := rfl
  rw [hhead, if_neg hpns]
  by_cases hsb : (afterSynth env ow limit text fs0).1.hasFile .single = true ∧ ow = false
  · rw [if_pos hsb]
  · rw [if_neg hsb, hren, if_pos rfl]

theorem hasFile_of_get {fs : FS} {p : MP3Path} {n : Nat} (h : fs.get p = some n) :
    fs.hasFile p = true := by
  rw [FS.hasFile, h]
  rfl

theorem full_ne_concat : (MP3Path.full ≠ MP3Path.concatList) := by
  intro hh
  cases hh

theorem part_ne_concat (i : Nat) : (MP3Path.part i ≠ MP3Path.concatList) := by
  intro hh
  cases hh

theorem part_ne_full (i : Nat) : (MP3Path.part i ≠ MP3Path.full) := by
  intro hh
  cases hh

theorem part_ne_single (i : Nat) : (MP3Path.part i ≠ MP3Path.single) := by
  intro hh
  cases hh

theorem full_not_in_validFor {env : SynthEnv} {ow : Bool} {limit : Nat}
    {text : List Char} {fs0 : FS} :
    MP3Path.full ∉ validFor env ow limit text fs0 := by
  intro hm
  obtain ⟨i, _, hpi⟩ := mem_partsFor (mem_validParts.1 hm).1
  exact part_ne_full i hpi.symm

theorem synthesizeToMp3_paths_exist (env : SynthEnv) (ow : Bool) (limit : Nat)
    (text : List Char) (fs0 : FS) :
    ∀ p ∈ (synthesizeToMp3 env ow limit text fs0).paths,
      (synthesizeToMp3 env ow limit text fs0).fs.hasFile p = true ∧
        (∀ i : Nat, p = .part i → 0 < (synthesizeToMp3 env ow limit text fs0).fs.size p) := by
  have hvp : ∀ q ∈ validFor env ow limit text fs0,
      (afterSynth env ow limit text fs0).1.hasFile q = true ∧
        0 < (afterSynth env ow limit text fs0).1.size q :=
    fun q hq => ⟨(mem_validParts.1 hq).2.1, (mem_validParts.1 hq).2.2⟩
  have hvshape : ∀ q ∈ validFor env ow limit text fs0, ∃ i, q = .part i := by
    intro q hq
    obtain ⟨i, _, hpi⟩ := mem_partsFor (mem_validParts.1 hq).1
    exact ⟨i, hpi⟩
  simp only [synthesizeToMp3]
  by_cases hstrip : (strip text).isEmpty = true
  · rw [if_pos hstrip]
    intro p hp
    cases hp
  rw [if_neg hstrip]
  by_cases hchunks : (chunkText limit text).isEmpty = true
  · rw [if_pos hchunks]
    intro p hp
    cases hp
  rw [if_neg hchunks]
  by_cases hve : (validFor env ow limit text fs0).isEmpty = true
  · rw [if_pos hve]
    intro p hp
    cases hp
  rw [if_neg hve]
  by_cases hlen : 1 < (validFor env ow limit text fs0).length
  · rw [if_pos hlen]
    by_cases hfast : ow = false ∧ (afterSynth env ow limit text fs0).1.hasFile .full = true
    · rw [if_pos hfast]
      intro p hp
      rw [List.mem_singleton.1 hp]
      refine ⟨hfast.2, ?_⟩
      intro i hh
      cases hh
    · rw [if_neg hfast]
      cases hcs : env.combineSize with
      | some n =>
        intro p hp
        rw [List.mem_singleton.1 hp]
        have hget : ((((((afterSynth env ow limit text fs0).1.write .concatList 1).write
            .full n).removeList (validFor env ow limit text fs0)).remove
            MP3Path.concatList)).get .full = some n := by
          rw [FS.get_remove_ne full_ne_concat,
            FS.get_removeList_not_mem _ _ full_not_in_validFor, FS.get_write_self]
        refine ⟨hasFile_of_get hget, ?_⟩
        intro i hh
        cases hh
      | none =>
        intro p hp
        obtain ⟨i, hpi⟩ := hvshape p hp
        have hget : (((afterSynth env ow limit text fs0).1.write .concatList 1).remove
            MP3Path.concatList).get p = (afterSynth env ow limit text fs0).1.get p := by
          rw [hpi, FS.get_remove_ne (part_ne_concat i), FS.get_write_ne (part_ne_concat i)]
        have hfp := hvp p hp
        constructor
        · rw [FS.hasFile, hget]
          exact hfp.1
        · intro j _
          rw [FS.size, hget]
          exact hfp.2
  · rw [if_neg hlen]
    have hvne : validFor env ow limit text fs0 ≠ [] :=
      fun hh => (by rw [hh] at hve; exact hve rfl)
    have hlen1 : (validFor env ow limit text fs0).length = 1 := by
      have := List.length_pos.2 hvne
      omega
    obtain ⟨q, hq⟩ := List.length_eq_one.1 hlen1
    obtain ⟨i, hqi⟩ := hvshape q (by rw [hq]; exact List.mem_cons_self _ _)
    have hfq := hvp q (by rw [hq]; exact List.mem_cons_self _ _)
    rw [hq]
    have hhead : ([q] : List MP3Path).headD .single = q := rfl
    rw [hhead]
    rw [if_neg (by rw [hqi]; exact part_ne_single i)]
    by_cases hsb : (afterSynth env ow limit text fs0).1.hasFile .single = true ∧ ow = false
    · rw [if_pos hsb]
      intro p hp
      rw [List.mem_singleton.1 hp]
      refine ⟨hsb.1, ?_⟩
      intro j hh
      cases hh
    · rw [if_neg hsb]
      have hfs2get : (if (afterSynth env ow limit text fs0).1.hasFile .single = true ∧
            ow = true then (afterSynth env ow limit text fs0).1.remove .single
          else (afterSynth env ow limit text fs0).1).get q =
          (afterSynth env ow limit text fs0).1.get q := by
        by_cases hc : (afterSynth env ow limit text fs0).1.hasFile .single = true ∧ ow = true
        · rw [if_pos hc, hqi, FS.get_remove_ne (by
            intro hh
            exact part_ne_single i hh)]
        · rw [if_neg hc]
      obtain ⟨m, hm⟩ : ∃ m, (afterSynth env ow limit text fs0).1.get q = some m := by
        have := hfq.1
        rw [FS.hasFile] at this
        cases hgq : (afterSynth env ow limit text fs0).1.get q with
        | none => rw [hgq] at this; cases this
        | some m => exact ⟨m, rfl⟩
      by_cases hrn : env.renameOk = true
      · rw [if_pos hrn]
        intro p hp
        rw [List.mem_singleton.1 hp]
        have hren : ((if (afterSynth env ow limit text fs0).1.hasFile .single = true ∧
              ow = true then (afterSynth env ow limit text fs0).1.remove .single
            else (afterSynth env ow limit text fs0).1).rename q .single).get .single =
            some m := by
          rw [FS.rename, hfs2get, hm]
          exact FS.get_write_self _ _ _
        refine ⟨hasFile_of_get hren, ?_⟩
        intro j hh
        cases hh
      · rw [if_neg hrn]
        intro p hp
        rw [List.mem_singleton.1 hp]
        constructor
        · rw [FS.hasFile, hfs2get, hm]
          rfl
        · intro j _
          rw [FS.size, hfs2get, hm]
          have := hfq.2
          rw [FS.size, hm] at this
          exact this

theorem fresh_run_characterization (env : SynthEnv) (limit : Nat) (text : List Char)
    (fs0 : FS)
    (habsent : ∀ ic ∈ enumFrom 1 (chunkText limit text), fs0.get (.part ic.1) = none)
    (hsucc : ∀ c ∈ chunkText limit text, ∃ m, env.synth c = some m ∧ 0 < m) :
    (afterSynth env false limit text fs0).2 = (chunkText limit text).length ∧
    validFor env false limit text fs0 = partsFor (chunkText limit text) ∧
    (∀ p : MP3Path, (∀ i : Nat, p ≠ .part i) →
      (afterSynth env false limit text fs0).1.get p = fs0.get p) := by
  have hsucc2 : ∀ c ∈ chunkText limit text, ∃ m, env.synth c = some m :=
    fun c hc => ⟨(hsucc c hc).choose, (hsucc c hc).choose_spec.1⟩
  obtain ⟨hcalls, huntouched, hparts⟩ :=
    synthGo_fresh env (chunkText limit text) 1 fs0 0 habsent hsucc2
  have hdef : afterSynth env false limit text fs0 =
      synthGo env false (enumFrom 1 (chunkText limit text)) fs0 0 := rfl
  refine ⟨by rw [hdef, hcalls]; omega, ?_, ?_⟩
  · have hval : validFor env false limit text fs0 =
        validParts (afterSynth env false limit text fs0).1
          (partsFor (chunkText limit text)) := rfl
    rw [hval]
    apply validParts_all
    intro p hp
    rw [partsFor] at hp
    obtain ⟨ic, hic, hpe⟩ := List.mem_map.1 hp
    obtain ⟨m, hsm, hmpos⟩ := hsucc ic.2 (mem_enumFrom _ 1 hic).2
    have hg : (afterSynth env false limit text fs0).1.get (.part ic.1) = some m := by
      rw [hdef, hparts ic hic, hsm]
    rw [← hpe]
    constructor
    · exact hasFile_of_get hg
    · rw [FS.size, hg]
      exact hmpos
  · intro p hp
    rw [hdef]
    exact huntouched p (fun ic _ => hp ic.1)

theorem rnSummaries_length (llm : List Char → Option (List Char))
    (chunks : List (List Char)) :
    (rnSummaries llm chunks).length = chunks.length := by
  rw [rnSummaries, List.length_map, enumFrom_length]

theorem c1_counterexample :
    ¬(∀ c ∈ chunkTextByParagraphs 3 "abcde".toList, c.length ≤ 3) := by
  decide

/-- C1: every segment of the byte-budget chunker `chunkText` has encoded size
at most the budget; the character-budget chunker `chunkTextByParagraphs` obeys
its budget except that a single oversized paragraph is emitted whole as one
chunk, which may exceed the budget by any amount (the two algorithms are not
identical: the paragraph chunker has no sentence or hard-cut fallback). -/
theorem c1_amended_budget_bound (limit : Nat) (text : List Char) (c : List Char) :
    (c ∈ chunkText limit text → utf8Len c ≤ limit) ∧
    (c ∈ chunkTextByParagraphs limit text → c.length ≤ limit ∨ c ∈ splitPP text) :=
  ⟨fun h => chunkText_sizes c h, fun h => chunkTextByParagraphs_bound c h⟩

theorem c1_amended_budget_bound_witness :
    utf8Len ("Hi.".toList) ≤ 4 ∧
      ("abcde".toList.length ≤ 3 ∨ "abcde".toList ∈ splitPP ("abcde".toList)) :=
  ⟨(c1_amended_budget_bound 4 "Hi.\n\nBye".toList "Hi.".toList).1 (by decide),
    (c1_amended_budget_bound 3 "abcde".toList "abcde".toList).2 (by decide)⟩

theorem c3_counterexample :
    rnReduce (fun _ => none) (fun _ => none) ["alpha".toList] =
        rnPlaceholder 1 "alpha".toList ∧
      rnReduce (fun _ => none) (fun _ => none) ["alpha".toList] ≠ aggFailText := by
  constructor
  · decide
  · decide

/-- C3: the per-chunk loop records a placeholder for every failed chunk, so
the summaries list always has exactly one entry per chunk and, for a nonempty
chunk list, the reducer never returns the aggregate failure: even when every
transform call fails it proceeds to the final phase over the placeholder
concatenation. -/
theorem c3_amended_placeholders_never_aggregate
    (llm llmFinal : List Char → Option (List Char)) (chunks : List (List Char))
    (h : chunks ≠ []) :
    rnReduce llm llmFinal chunks =
        rnFinalPhase llmFinal (List.intercalate rnSep (rnSummaries llm chunks)) ∧
      (rnSummaries llm chunks).length = chunks.length := by
  refine ⟨?_, rnSummaries_length llm chunks⟩
  simp only [rnReduce]
  rw [if_neg]
  intro hh
  have h0 := rnSummaries_length llm chunks
  rw [List.isEmpty_iff.1 hh] at h0
  exact h (List.length_eq_zero.1 h0.symm)

theorem c3_amended_placeholders_never_aggregate_witness :
    rnReduce (fun _ => none) (fun _ => none) ["alpha".toList] =
        rnFinalPhase (fun _ => none)
          (List.intercalate rnSep (rnSummaries (fun _ => none) ["alpha".toList])) ∧
      (rnSummaries (fun _ => none) ["alpha".toList]).length = 1 :=
  c3_amended_placeholders_never_aggregate (fun _ => none) (fun _ => none)
    ["alpha".toList] (by decide)

theorem c4_counterexample :
    chunkText 1 "ab".toList = [] ∧ "ab".toList ≠ [] := by
  decide

/-- C4: when the budget is too small for the alphabet in use — the estimated
prefix length is zero (budget at most 1) or the first remaining character
alone exceeds the budget — the hard cut does not loop forever, but neither
does it raise any error: it breaks out and silently drops the remaining text,
returning a partial or empty result. -/
theorem c4_amended_silent_drop (limit : Nat) (s cs : List Char) (c : Char) :
    (limit ≤ 1 → hardSplit limit s = []) ∧
    (limit < c.utf8Size → hardSplit limit (c :: cs) = []) :=
  ⟨fun h => hardSplit_of_small h s, fun h => hardSplit_of_first_too_big h cs⟩

theorem c4_amended_silent_drop_witness :
    hardSplit 1 "ab".toList = [] ∧ hardSplit 2 ('€' :: ['x']) = [] :=
  ⟨(c4_amended_silent_drop 1 "ab".toList [] 'a').1 (by decide),
    (c4_amended_silent_drop 2 [] ['x'] '€').2 (by decide)⟩

/-- C8: no segment boundary splits a multi-byte encoded character: every
segment the byte chunker produces is a sequence of whole characters, so
re-encoding it as UTF-8 and strictly decoding the bytes succeeds and returns
exactly its code points (safety holds by construction, because all slicing in
the chunker is at character granularity). -/
theorem c8_segments_decode (limit : Nat) (text : List Char) (c : List Char)
    (_hc : c ∈ chunkText limit text) :
    utf8Decode (utf8Encode c) = some (c.map Char.toNat) :=
  utf8Decode_encode c

theorem c8_segments_decode_witness :
    utf8Decode (utf8Encode ("Hi.".toList)) = some ("Hi.".toList.map Char.toNat) :=
  c8_segments_decode 100 "Hi.".toList "Hi.".toList (by decide)

theorem c9_counterexample :
    chunkText 1 "ab".toList = [] ∧ nw ("ab".toList) ≠ [] := by
  decide

/-- C9: provided the budget is at least 2 and every character of the text fits
the budget on its own (otherwise the hard cut silently drops text, see C4),
concatenating all segments of the byte chunker preserves exactly the
non-whitespace characters of the text in order; the segments differ from the
input only by the whitespace normalization of paragraph and sentence
splitting. -/
theorem c9_amended_content_preserved (limit : Nat) (text : List Char)
    (h2 : 2 ≤ limit) (hch : ∀ c ∈ text, c.utf8Size ≤ limit) :
    ((chunkText limit text).map nw).flatten = nw text :=
  chunkText_content h2 hch

theorem c9_amended_content_preserved_witness :
    ((chunkText 4 "Hi.\n\nBye".toList).map nw).flatten = nw ("Hi.\n\nBye".toList) :=
  c9_amended_content_preserved 4 "Hi.\n\nBye".toList (by decide) (by decide)

/-- C10: the hard-split loop of `_chunk_text` terminates on every input and
every positive byte limit: with any iteration bound of at least the length of
the remaining text, the fuelled loop `hardSplitF` completes (returns `some`)
and its result is the bound-independent value `hardSplit`, because every
iteration either emits a non-empty piece advancing by at least one character
or exits the loop. -/
theorem c10_hard_split_terminates (limit fuel : Nat) (s : List Char)
    (_hpos : 0 < limit) (hfuel : s.length ≤ fuel) :
    hardSplitF limit fuel s = some (hardSplit limit s) := by
  rw [hardSplitF_eq_some s.length s fuel (Nat.le_refl _) hfuel]
  rw [hardSplitGo_eq_hardSplit hfuel]

theorem c10_hard_split_terminates_witness :
    hardSplitF 3 2 "ab".toList = some (hardSplit 3 "ab".toList) :=
  c10_hard_split_terminates 3 2 "ab".toList (by decide) (by decide)

/-- C5: when more than one valid part exists, the pre-existing combined file
is not returned instead, and the external combiner fails or is unavailable,
the assembler returns the ordered list of valid part paths, and every one of
those part files is still on disk afterwards with its size unchanged (and
hence non-zero); only the temporary concat manifest is removed. -/
theorem c5_combine_failure_keeps_parts (env : SynthEnv) (ow : Bool) (limit : Nat)
    (text : List Char) (fs0 : FS)
    (hstrip : (strip text).isEmpty = false)
    (hlen : 1 < (validFor env ow limit text fs0).length)
    (hfast : ¬(ow = false ∧ (afterSynth env ow limit text fs0).1.hasFile .full = true))
    (hcomb : env.combineSize = none) :
    (synthesizeToMp3 env ow limit text fs0).paths = validFor env ow limit text fs0 ∧
    (synthesizeToMp3 env ow limit text fs0).combineCalls = 1 ∧
    ∀ p ∈ validFor env ow limit text fs0,
      (synthesizeToMp3 env ow limit text fs0).fs.get p =
          (afterSynth env ow limit text fs0).1.get p ∧
        (synthesizeToMp3 env ow limit text fs0).fs.hasFile p = true ∧
        0 < (synthesizeToMp3 env ow limit text fs0).fs.size p := by
  have hrw := synthesizeToMp3_combineFail env ow limit text fs0 hstrip hlen hfast hcomb
  rw [hrw]
  refine ⟨rfl, rfl, ?_⟩
  intro p hp
  obtain ⟨i, _, hpi⟩ := mem_partsFor (mem_validParts.1 hp).1
  have hget : (((afterSynth env ow limit text fs0).1.write .concatList 1).remove
      MP3Path.concatList).get p = (afterSynth env ow limit text fs0).1.get p := by
    rw [hpi, FS.get_remove_ne (part_ne_concat i), FS.get_write_ne (part_ne_concat i)]
  refine ⟨hget, ?_, ?_⟩
  · rw [FS.hasFile, hget]
    exact (mem_validParts.1 hp).2.1
  · rw [FS.size, hget]
    exact (mem_validParts.1 hp).2.2

theorem c5_combine_failure_keeps_parts_witness :
    (synthesizeToMp3 ⟨fun _ => some 1, none, true⟩ false 4 "Hi.\n\nBye".toList []).paths =
        validFor ⟨fun _ => some 1, none, true⟩ false 4 "Hi.\n\nBye".toList [] ∧
      (synthesizeToMp3 ⟨fun _ => some 1, none, true⟩ false 4
          "Hi.\n\nBye".toList []).combineCalls = 1 ∧
      ∀ p ∈ validFor ⟨fun _ => some 1, none, true⟩ false 4 "Hi.\n\nBye".toList [],
        (synthesizeToMp3 ⟨fun _ => some 1, none, true⟩ false 4
              "Hi.\n\nBye".toList []).fs.get p =
            (afterSynth ⟨fun _ => some 1, none, true⟩ false 4
              "Hi.\n\nBye".toList []).1.get p ∧
          (synthesizeToMp3 ⟨fun _ => some 1, none, true⟩ false 4
            "Hi.\n\nBye".toList []).fs.hasFile p = true ∧
          0 < (synthesizeToMp3 ⟨fun _ => some 1, none, true⟩ false 4
            "Hi.\n\nBye".toList []).fs.size p :=
  c5_combine_failure_keeps_parts ⟨fun _ => some 1, none, true⟩ false 4
    "Hi.\n\nBye".toList [] (by decide) (by decide) (by decide) rfl

theorem c6_counterexample :
    (synthesizeToMp3 ⟨fun _ => some 1, some 1, false⟩ false 100
        "Hi.".toList []).paths = [MP3Path.part 1] := by
  decide

/-- C6: whenever exactly one valid part results and the final rename succeeds,
the assembler returns the canonical single-artifact path and never a part
path; but when the rename fails (OSError branch of the source), the original
part path is returned, so the claim holds only under a successful rename. -/
theorem c6_amended_single_canonical (env : SynthEnv) (ow : Bool) (limit : Nat)
    (text : List Char) (fs0 : FS)
    (hstrip : (strip text).isEmpty = false)
    (hlen : (validFor env ow limit text fs0).length = 1)
    (hren : env.renameOk = true) :
    (synthesizeToMp3 env ow limit text fs0).paths = [MP3Path.single] :=
  synthesizeToMp3_single_paths env ow limit text fs0 hstrip hlen hren

theorem c6_amended_single_canonical_witness :
    (synthesizeToMp3 ⟨fun _ => some 1, some 1, true⟩ false 100
        "Hi.".toList []).paths = [MP3Path.single] :=
  c6_amended_single_canonical ⟨fun _ => some 1, some 1, true⟩ false 100
    "Hi.".toList [] (by decide) (by decide) rfl

theorem c7_counterexample :
    (synthesizeToMp3 ⟨fun _ => none, none, true⟩ false 4 "Hi.\n\nBye".toList
        [(MP3Path.full, 0), (MP3Path.part 1, 5), (MP3Path.part 2, 5)]).paths =
        [MP3Path.full] ∧
      (synthesizeToMp3 ⟨fun _ => none, none, true⟩ false 4 "Hi.\n\nBye".toList
        [(MP3Path.full, 0), (MP3Path.part 1, 5), (MP3Path.part 2, 5)]).fs.size
          MP3Path.full = 0 := by
  decide

/-- C7: every path the assembler returns exists on disk at return time, and
every returned part path has non-zero size; however the canonical fast paths
(pre-existing combined or single artifact, checked with existence only) and a
freshly combined output are guaranteed to exist but not to be non-empty, so a
pre-existing empty canonical artifact can be returned (see the
counterexample). -/
theorem c7_amended_paths_exist (env : SynthEnv) (ow : Bool) (limit : Nat)
    (text : List Char) (fs0 : FS) :
    ∀ p ∈ (synthesizeToMp3 env ow limit text fs0).paths,
      (synthesizeToMp3 env ow limit text fs0).fs.hasFile p = true ∧
        (∀ i : Nat, p = .part i →
          0 < (synthesizeToMp3 env ow limit text fs0).fs.size p) :=
  synthesizeToMp3_paths_exist env ow limit text fs0

theorem c7_amended_paths_exist_witness :
    (synthesizeToMp3 ⟨fun _ => some 1, some 1, true⟩ false 100
          "Hi.".toList []).fs.hasFile MP3Path.single = true ∧
      (∀ i : Nat, MP3Path.single = .part i →
        0 < (synthesizeToMp3 ⟨fun _ => some 1, some 1, true⟩ false 100
          "Hi.".toList []).fs.size MP3Path.single) :=
  c7_amended_paths_exist ⟨fun _ => some 1, some 1, true⟩ false 100
    "Hi.".toList [] MP3Path.single (by decide)

theorem c2_counterexample :
    (synthesizeToMp3 ⟨fun _ => some 1, some 1, true⟩ false 4 "Hi.\n\nBye".toList
        (synthesizeToMp3 ⟨fun _ => some 1, some 1, true⟩ false 4
          "Hi.\n\nBye".toList []).fs).paths =
        (synthesizeToMp3 ⟨fun _ => some 1, some 1, true⟩ false 4
          "Hi.\n\nBye".toList []).paths ∧
      (synthesizeToMp3 ⟨fun _ => some 1, some 1, true⟩ false 4 "Hi.\n\nBye".toList
        (synthesizeToMp3 ⟨fun _ => some 1, some 1, true⟩ false 4
          "Hi.\n\nBye".toList []).fs).synthCalls = 2 ∧
      ¬(synthesizeToMp3 ⟨fun _ => some 1, some 1, true⟩ false 4 "Hi.\n\nBye".toList
        (synthesizeToMp3 ⟨fun _ => some 1, some 1, true⟩ false 4
          "Hi.\n\nBye".toList []).fs).synthCalls = 0 := by
  decide

/-- C2: starting from an empty base namespace with every per-chunk synthesis
succeeding non-empty, at least two chunks and a succeeding combiner, a first
run returns the combined path, and a second run with overwrite false returns
the identical path list and makes zero combine calls (the combined-file fast
path) — but, because the success path deleted the part files the skip check
relies on, the second run re-invokes the per-chunk transform once per chunk:
transform-call idempotence does not hold. -/
theorem c2_amended_rerun_behavior (env : SynthEnv) (limit : Nat) (text : List Char)
    (n : Nat)
    (hstrip : (strip text).isEmpty = false)
    (hsucc : ∀ c ∈ chunkText limit text,
      (env.synth c).isSome = true ∧ 0 < (env.synth c).getD 0)
    (hnchunks : 2 ≤ (chunkText limit text).length)
    (hcomb : env.combineSize = some n) :
    (synthesizeToMp3 env false limit text []).paths = [MP3Path.full] ∧
    (synthesizeToMp3 env false limit text
        (synthesizeToMp3 env false limit text []).fs).paths = [MP3Path.full] ∧
    (synthesizeToMp3 env false limit text
        (synthesizeToMp3 env false limit text []).fs).combineCalls = 0 ∧
    (synthesizeToMp3 env false limit text
        (synthesizeToMp3 env false limit text []).fs).synthCalls =
      (chunkText limit text).length := by
  have hsucc2 : ∀ c ∈ chunkText limit text, ∃ m, env.synth c = some m ∧ 0 < m := by
    intro c hc
    obtain ⟨h1, h2⟩ := hsucc c hc
    cases hsc : env.synth c with
    | none => rw [hsc] at h1; cases h1
    | some m =>
      rw [hsc] at h2
      exact ⟨m, rfl, h2⟩
  obtain ⟨hc1, hv1, hu1⟩ := fresh_run_characterization env limit text []
    (fun ic _ => rfl) hsucc2
  have hlen1 : 1 < (validFor env false limit text []).length := by
    rw [hv1, partsFor_length]
    omega
  have hfull1 : (afterSynth env false limit text []).1.get .full = none := by
    rw [hu1 MP3Path.full (fun i => (part_ne_full i).symm)]
    rfl
  have hfast1 : ¬(false = false ∧
      (afterSynth env false limit text []).1.hasFile .full = true) := by
    intro hh
    have := hh.2
    rw [FS.hasFile, hfull1] at this
    cases this
  have hrun1 := synthesizeToMp3_combineOk env false limit text [] n hstrip hlen1
    hfast1 hcomb
  have hpaths1 : (synthesizeToMp3 env false limit text []).paths = [MP3Path.full] := by
    rw [hrun1]
  have hfsA : (synthesizeToMp3 env false limit text []).fs =
      (((((afterSynth env false limit text []).1.write .concatList 1).write .full
        n).removeList (validFor env false limit text [])).remove .concatList) := by
    rw [hrun1]
  rw [hpaths1, hfsA]
  refine ⟨rfl, ?_⟩
  have hpartsA : ∀ ic ∈ enumFrom 1 (chunkText limit text),
      ((((((afterSynth env false limit text []).1.write .concatList 1).write .full
        n).removeList (validFor env false limit text [])).remove .concatList)).get
        (.part ic.1) = none := by
    intro ic hic
    rw [FS.get_remove_ne (part_ne_concat ic.1)]
    apply FS.get_removeList_mem
    rw [hv1, partsFor]
    exact List.mem_map.2 ⟨ic, hic, rfl⟩
  obtain ⟨hc2, hv2, hu2⟩ := fresh_run_characterization env limit text
    ((((((afterSynth env false limit text []).1.write .concatList 1).write .full
      n).removeList (validFor env false limit text [])).remove .concatList))
    hpartsA hsucc2
  have hlen2 : 1 < (validFor env false limit text
      ((((((afterSynth env false limit text []).1.write .concatList 1).write .full
        n).removeList (validFor env false limit text [])).remove
        .concatList))).length := by
    rw [hv2, partsFor_length]
    omega
  have hfullA : ((((((afterSynth env false limit text []).1.write .concatList 1).write
      .full n).removeList (validFor env false limit text [])).remove
      .concatList)).get .full = some n := by
    rw [FS.get_remove_ne full_ne_concat,
      FS.get_removeList_not_mem _ _ full_not_in_validFor, FS.get_write_self]
  have hfull2 : (afterSynth env false limit text
      ((((((afterSynth env false limit text []).1.write .concatList 1).write .full
        n).removeList (validFor env false limit text [])).remove
        .concatList))).1.hasFile .full = true := by
    apply hasFile_of_get
    rw [hu2 MP3Path.full (fun i => (part_ne_full i).symm)]
    exact hfullA
  have hrun2 := synthesizeToMp3_fullFast env false limit text
    ((((((afterSynth env false limit text []).1.write .concatList 1).write .full
      n).removeList (validFor env false limit text [])).remove .concatList))
    hstrip hlen2 ⟨rfl, hfull2⟩
  rw [hrun2]
  exact ⟨rfl, rfl, hc2⟩

theorem c2_amended_rerun_behavior_witness :
    (synthesizeToMp3 ⟨fun _ => some 1, some 1, true⟩ false 4
        "Hi.\n\nBye".toList []).paths = [MP3Path.full] ∧
      (synthesizeToMp3 ⟨fun _ => some 1, some 1, true⟩ false 4 "Hi.\n\nBye".toList
        (synthesizeToMp3 ⟨fun _ => some 1, some 1, true⟩ false 4
          "Hi.\n\nBye".toList []).fs).paths = [MP3Path.full] ∧
      (synthesizeToMp3 ⟨fun _ => some 1, some 1, true⟩ false 4 "Hi.\n\nBye".toList
        (synthesizeToMp3 ⟨fun _ => some 1, some 1, true⟩ false 4
          "Hi.\n\nBye".toList []).fs).combineCalls = 0 ∧
      (synthesizeToMp3 ⟨fun _ => some 1, some 1, true⟩ false 4 "Hi.\n\nBye".toList
        (synthesizeToMp3 ⟨fun _ => some 1, some 1, true⟩ false 4
          "Hi.\n\nBye".toList []).fs).synthCalls =
        (chunkText 4 "Hi.\n\nBye".toList).length :=
  c2_amended_rerun_behavior ⟨fun _ => some 1, some 1, true⟩ 4 "Hi.\n\nBye".toList 1
    (by decide) (by decide) (by decide) rfl
